import Mathlib

/-!
Verification of the NPDS4Clib raster-analysis core (clear_border.cpp,
process_lung_regions.cpp, regionprops_bbox.cpp) against its specification.

The C++ code operates on dense 2D numeric matrices.  We embed a matrix as a
function `ℕ → ℕ → α` together with explicit dimensions; `NumericMatrix`
(double) cells are modelled as `ℚ` (the code only compares values exactly or
by absolute difference, never relying on rounding), `IntegerMatrix` cells as
`ℤ`.  A cell is addressed as `(x, y)` with `x` the row (the fast storage
index: the C code addresses the flat buffer as `m[x + y * size.x]` with
`size.x = nrow`) and `y` the column.  Stateful C++ loops become explicit
state-passing recursion; the (terminating) `while (!s.empty())` loop of the
flood filler is given as a fuel-indexed function plus a proof that the
chosen fuel always suffices.
-/

/-- A pixel coordinate: `(row, col)`, i.e. `(x, y)` in `_floodFill`'s terms. -/
abbrev Pt := ℕ × ℕ

/-- An integer grid (`IntegerMatrix` contents / the flood filler's `int` buffer). -/
abbrev IGrid := ℕ → ℕ → ℤ

/-- A rational grid, modelling a `NumericMatrix` of doubles. -/
abbrev QGrid := ℕ → ℕ → ℚ

/-- In-bounds predicate for an `sx × sy` grid (`sx` rows, `sy` columns). -/
def inB (sx sy : ℕ) (p : Pt) : Prop := p.1 < sx ∧ p.2 < sy

instance (sx sy : ℕ) (p : Pt) : Decidable (inB sx sy p) := by
  unfold inB; infer_instance

/-- Vertical 4-adjacency: same column index... in `_floodFill`'s orientation the
scan direction is `y`, so "vertical" here means same `x`, `y` differing by one
(these are the cells a single scanline span walks through). -/
def adjV (p q : Pt) : Prop := p.1 = q.1 ∧ (p.2 + 1 = q.2 ∨ q.2 + 1 = p.2)

/-- Horizontal 4-adjacency: same `y`, `x` differing by one (the left/right
neighbour checks of `_floodFill`). -/
def adjH (p q : Pt) : Prop := p.2 = q.2 ∧ (p.1 + 1 = q.1 ∨ q.1 + 1 = p.1)

/-- 4-adjacency: the two pixels share an edge. -/
def adj (p q : Pt) : Prop := adjV p q ∨ adjH p q

instance (p q : Pt) : Decidable (adjV p q) := by unfold adjV; infer_instance
instance (p q : Pt) : Decidable (adjH p q) := by unfold adjH; infer_instance
instance (p q : Pt) : Decidable (adj p q) := by unfold adj; infer_instance

lemma adjV_symm {p q : Pt} (h : adjV p q) : adjV q p := by
  rcases h with ⟨h1, h2⟩; exact ⟨h1.symm, h2.symm⟩

lemma adjH_symm {p q : Pt} (h : adjH p q) : adjH q p := by
  rcases h with ⟨h1, h2⟩; exact ⟨h1.symm, h2.symm⟩

lemma adj_symm {p q : Pt} (h : adj p q) : adj q p := by
  rcases h with h | h
  · exact Or.inl (adjV_symm h)
  · exact Or.inr (adjH_symm h)

/-- Connectivity inside the set of cells of an `IGrid` holding value `tc`:
`q` is reachable from `p` through a chain of 4-adjacent in-bounds cells all
holding `tc` (the chain's target cells; the start is constrained by the
caller).  This is the region `_floodFill` is specified to paint. -/
def conn (sx sy : ℕ) (tc : ℤ) (m : IGrid) (p q : Pt) : Prop :=
  Relation.ReflTransGen (fun a b => adj a b ∧ inB sx sy b ∧ m b.1 b.2 = tc) p q

/-- Connectivity among the nonzero cells of a `QGrid`: the maximal 4-connected
components of `{p | src p ≠ 0}` are the components `bwlabel` must label. -/
def connNZ (sx sy : ℕ) (src : QGrid) (p q : Pt) : Prop :=
  Relation.ReflTransGen (fun a b => adj a b ∧ inB sx sy b ∧ src b.1 b.2 ≠ 0) p q

/-- The upward walk of `_floodFill`: from `(x, y)` decrement `y` while the
cell still holds `tc` (`while (pt.y >= 0 && m[...] == tc) pt.y--`), then step
back down one (`pt.y++`).  Returns the first row of the run that the
downward painting scan will start from. -/
def upWalk (tc : ℤ) (m : IGrid) (x : ℕ) : ℕ → ℕ
  | 0 => if m x 0 = tc then 0 else 1
  | y + 1 => if m x (y + 1) = tc then upWalk tc m x y else y + 2

/-- The row at which the downward scan of `_floodFill` stops: the least
`y' ≥ y` with `y' = sy` or `m x y' ≠ tc` (the negation of the scan's
`while (pt.y < size.y && m[...] == tc)` condition). -/
def stopY (sy : ℕ) (tc : ℤ) (m : IGrid) (x y : ℕ) : ℕ :=
  if y < sy ∧ m x y = tc then stopY sy tc m x (y + 1) else y
termination_by sy - y
decreasing_by simp_wf; omega

/-- The downward painting scan of `_floodFill` (the inner
`while (pt.y < size.y && ...)` loop): starting at `(x, y)`, while the cell
matches `tc` paint it `rc`, check the left neighbour (push a seed when
entering a run of matching left cells, tracked by `spanLeft`), then the
right neighbour (tracked by `spanRight`), and move down.  Returns the
updated grid together with the list of seeds pushed, in push order. -/
def downScan (sx sy : ℕ) (tc rc : ℤ) (m : IGrid) (x y : ℕ) (sl sr : Bool) :
    IGrid × List Pt :=
  if h : y < sy ∧ m x y = tc then
    let m' : IGrid := fun a b => if a = x ∧ b = y then rc else m a b
    let mLeft : Bool := decide (0 < x) && decide (m' (x - 1) y = tc)
    let mRight : Bool := decide (x < sx - 1) && decide (m' (x + 1) y = tc)
    let pushL : Bool := !sl && mLeft
    let pushR : Bool := !sr && mRight
    let sl' : Bool := if pushL then true
      else if sl && decide (0 < x) && !(decide (m' (x - 1) y = tc)) then false else sl
    let sr' : Bool := if pushR then true
      else if sr && decide (x < sx - 1) && !(decide (m' (x + 1) y = tc)) then false else sr
    let rowPushes : List Pt :=
      (if pushL then [(x - 1, y)] else []) ++ (if pushR then [(x + 1, y)] else [])
    let rest := downScan sx sy tc rc m' x (y + 1) sl' sr'
    (rest.1, rowPushes ++ rest.2)
  else (m, [])
termination_by sy - y
decreasing_by simp_wf; omega

/-- Overwriting one cell of a grid (the `m[pt.x + pt.y * size.x] = rc`
assignment of the painting scan). -/
def paintCell (rc : ℤ) (m : IGrid) (x y : ℕ) : IGrid :=
  fun a b => if a = x ∧ b = y then rc else m a b

/-- The value of `spanLeft` after the row-`y` checks: unchanged at the left
edge (`pt.x > 0` fails, neither branch runs), otherwise exactly "the left
neighbour matched at row `y`" (used through `downScan_pos` below). -/
def slNext (tc : ℤ) (m : IGrid) (x y : ℕ) (sl : Bool) : Bool :=
  if 0 < x then decide (m (x - 1) y = tc) else sl

/-- The value of `spanRight` after the row-`y` checks (see `slNext`). -/
def srNext (sx : ℕ) (tc : ℤ) (m : IGrid) (x y : ℕ) (sr : Bool) : Bool :=
  if x < sx - 1 then decide (m (x + 1) y = tc) else sr

/-- The seeds pushed by the row-`y` left/right checks, in push order. -/
def pushesRow (sx : ℕ) (tc : ℤ) (m : IGrid) (x y : ℕ) (sl sr : Bool) : List Pt :=
  (if sl = false ∧ 0 < x ∧ m (x - 1) y = tc then [((x - 1 : ℕ), y)] else []) ++
  (if sr = false ∧ x < sx - 1 ∧ m (x + 1) y = tc then [((x + 1 : ℕ), y)] else [])

/-- Number of in-bounds cells currently holding `tc`; used only to bound the
fuel of the flood fill's outer loop (the C loop needs no fuel; the proof
`fillLoop_total_inv` below shows this fuel always suffices). -/
def matchCnt (sx sy : ℕ) (tc : ℤ) (m : IGrid) : ℕ :=
  (((Finset.range sx) ×ˢ (Finset.range sy)).filter (fun p => m p.1 p.2 = tc)).card

/-- The outer `while (!s.empty())` loop of `_floodFill`: pop a point, walk up
to the top of its run, scan down painting and collecting pushed seeds, then
continue with the pushed seeds on top of the stack.  `none` means the fuel
ran out (shown impossible for the fuel chosen in `floodFill`). -/
def fillLoop (sx sy : ℕ) (tc rc : ℤ) : ℕ → IGrid → List Pt → Option IGrid
  | _, m, [] => some m
  | 0, _, _ :: _ => none
  | fuel + 1, m, pt :: rest =>
    let y0 := upWalk tc m pt.1 pt.2
    let ds := downScan sx sy tc rc m pt.1 y0 false false
    fillLoop sx sy tc rc fuel ds.1 (ds.2.reverse ++ rest)

/-- `_floodFill<int>` with `tol = 0`, the only instantiation the repository
ever runs (`_bwlabel` line 76): reads the target colour `tc` from the seed,
applies the collision guard (`tol = 0`, `T = int`: if `tc == rc` then
`rc = rc + 1`), and runs the span-filling loop. -/
def floodFill (sx sy : ℕ) (m : IGrid) (p : Pt) (rcArg : ℤ) : IGrid :=
  let tc := m p.1 p.2
  let rc := if tc = rcArg then rcArg + 1 else rcArg
  (fillLoop sx sy tc rc (2 * matchCnt sx sy tc m + 1) m [p]).getD m

/-- The initial label grid of `_bwlabel`: `res[i] = (src[i] == 0.0) ? 0 : -1`
(out-of-bounds cells, which the C code never touches, are fixed at 0). -/
def res0 (sx sy : ℕ) (src : QGrid) : IGrid :=
  fun x y => if x < sx ∧ y < sy then (if src x y = 0 then 0 else -1) else 0

/-- The scan order of `_bwlabel`'s labelling loop: `ky` (column) outer, `kx`
(row) inner — i.e. increasing flat storage index `pos = kx + ky * size.x`. -/
def scanList (sx sy : ℕ) : List Pt :=
  (List.range sy).flatMap (fun ky => (List.range sx).map (fun kx => (kx, ky)))

/-- The flat storage index of a pixel (`pos` in `_bwlabel`). -/
def scanIdx (sx : ℕ) (p : Pt) : ℕ := p.2 * sx + p.1

/-- One step of `_bwlabel`'s labelling loop: at an unvisited cell
(`res[pos] == -1`) flood-fill with the next label and increment it. -/
def bwlabelStep (sx sy : ℕ) (st : IGrid × ℕ) (p : Pt) : IGrid × ℕ :=
  if st.1 p.1 p.2 = -1 then (floodFill sx sy st.1 p (st.2 : ℤ), st.2 + 1) else st

/-- `bwlabel` / `_bwlabel`: initialise the label grid from the raster, scan
in storage order flood-filling each still-unvisited cell with a fresh
sequential label (starting at 1), and return the label grid together with
`num_labels = idx - 1`. -/
def bwlabel (sx sy : ℕ) (src : QGrid) : IGrid × ℕ :=
  let st := (scanList sx sy).foldl (bwlabelStep sx sy) (res0 sx sy src, 1)
  (st.1, st.2 - 1)

/-- The pixel visited at step `pos` of `_bwlabel`'s scan
(`kx = pos % size.x`, `ky = pos / size.x`). -/
def posOf (sx : ℕ) (n : ℕ) : Pt := (n % sx, n / sx)

/-- All in-bounds pixels in the row-major order of the nested
`for (i) for (j)` loops used by `regionprops_bbox`, `process_lung_regions`
and `get_border_indices`. -/
def pixList (nrow ncol : ℕ) : List Pt :=
  (List.range nrow).flatMap (fun i => (List.range ncol).map (fun j => (i, j)))

/-- The border-frame matrix of `clear_border` (lines 200–216): cell `(i, j)`
is true iff some loop iteration `k < ext` writes it — rows `k` and
`nrow − k − 1` across all columns, and columns `k` and `ncol − k − 1`
across all rows.  The target indices are C ints; a negative index (which
occurs exactly when `ext` exceeds `nrow` or `ncol`, claim C10) is an
out-of-bounds write and marks no cell of the matrix. -/
def borders (nrow ncol ext : ℕ) (i j : ℕ) : Bool :=
  ((List.range ext).any fun k =>
    decide ((i : ℤ) = (k : ℤ)) || decide ((i : ℤ) = (nrow : ℤ) - k - 1)) ||
  ((List.range ext).any fun k =>
    decide ((j : ℤ) = (k : ℤ)) || decide ((j : ℤ) = (ncol : ℤ) - k - 1))

/-- `get_border_indices`: the set of label values found under a true border
cell.  The C++ function returns the `unordered_set` as a vector in
unspecified order; only membership is used downstream, so the embedding
keeps the set. -/
def getBorderIndices (nrow ncol : ℕ) (labels : IGrid) (B : ℕ → ℕ → Bool) : Finset ℤ :=
  (((Finset.range nrow) ×ˢ (Finset.range ncol)).filter (fun p => B p.1 p.2 = true)).image
    (fun p => labels p.1 p.2)

/-- `seq(0, num_labels)`, the `indices` vector built by `clear_border`
line 225. -/
def seqIndices (num : ℕ) : List ℤ := (List.range (num + 1)).map (fun v : ℕ => (v : ℤ))

/-- `create_label_mask`: `label_mask[i] = borders_set.count(indices[i]) > 0`. -/
def createLabelMask (indices : List ℤ) (borderSet : Finset ℤ) : List Bool :=
  indices.map (fun v => decide (v ∈ borderSet))

/-- `create_clear_mask`: `mask(i, j) = label_mask[labels(i, j)]`.  Labels
produced by `bwlabel` lie in `[0, num_labels]`, so the lookup into the
`num_labels + 1`-element mask is in bounds; the embedding returns false for
an out-of-range index. -/
def createClearMask (labels : IGrid) (labelMask : List Bool) : ℕ → ℕ → Bool :=
  fun i j => labelMask.getD (labels i j).toNat false

/-- `clear_border_pixels`: overwrite masked in-bounds cells with `bgval`. -/
def clearBorderPixels (nrow ncol : ℕ) (out : QGrid) (mask : ℕ → ℕ → Bool) (bgval : ℚ) :
    QGrid :=
  fun i j => if i < nrow ∧ j < ncol ∧ mask i j = true then bgval else out i j

/-- `clear_border` (clear_border.cpp lines 188–232): clone the input, build
the border frame with `ext = buffer_size + 1`, label the clone with
`bwlabel`, collect the labels under the frame, turn them into a per-label
mask over `seq(0, num_labels)`, expand it to a per-pixel mask, and paint
`bgval` over the masked pixels of the clone. -/
def clearBorder (nrow ncol : ℕ) (g : QGrid) (buffer : ℕ) (bgval : ℚ) : QGrid :=
  let ext := buffer + 1
  let lb := bwlabel nrow ncol g
  let borderIdx := getBorderIndices nrow ncol lb.1 (fun i j => borders nrow ncol ext i j)
  let labelMask := createLabelMask (seqIndices lb.2) borderIdx
  let mask := createClearMask lb.1 labelMask
  clearBorderPixels nrow ncol g mask bgval

/-- Final contents of the caller's `labels` argument after `clear_border`
returns, in the explicit state-passing view of the C++ buffers: the
function's first statement clones the argument (`NumericMatrix out =
clone(labels)`, line 190) and every later write targets `out`, so the
caller's buffer is returned unchanged. -/
def clearBorderArgAfter (nrow ncol : ℕ) (g : QGrid) (buffer : ℕ) (bgval : ℚ) : QGrid := g

/-- The pixel count of label `v` (the quantity `process_lung_regions`'s
tally loop accumulates into `region_areas[v - 1]`). -/
def labelArea (nrow ncol : ℕ) (L : IGrid) (v : ℤ) : ℕ :=
  (pixList nrow ncol).countP (fun p => decide (L p.1 p.2 = v))

/-- `region_areas[label - 1]` (filter_lung_regions line 26). -/
def areaOfLabel (regionAreas : List ℤ) (lab : ℤ) : ℤ :=
  regionAreas.getD (lab - 1).toNat 0

/-- The running state of `filter_lung_regions`' selection loop:
`(max_area_1, max_label_1, max_area_2, max_label_2)`. -/
structure FilterAcc where
  a1 : ℤ
  l1 : ℤ
  a2 : ℤ
  l2 : ℤ
deriving DecidableEq

/-- One iteration of `filter_lung_regions`' loop (lines 25–40). -/
def filterStep (regionAreas : List ℤ) (st : FilterAcc) (lab : ℤ) : FilterAcc :=
  let area := areaOfLabel regionAreas lab
  if area > st.a1 then ⟨area, lab, st.a1, st.l1⟩
  else if area > st.a2 then ⟨st.a1, st.l1, area, lab⟩
  else st

/-- `filter_lung_regions` (process_lung_regions.cpp lines 5–56): validate
inputs (hard `Rcpp::stop` on empty vectors or out-of-range labels), select
the two largest-area labels by a single scan, and return them together with
whether the soft `Rcpp::warning` ("Less than two valid lung regions were
found") fired. -/
def filterLungRegions (validRegions : List ℤ) (regionAreas : List ℤ) :
    Except String (List ℤ × Bool) :=
  if validRegions.isEmpty ∨ regionAreas.isEmpty then
    Except.error "filter_lung_regions: Empty input vectors detected."
  else if validRegions.any (fun lab =>
      decide (lab ≤ 0) || decide ((regionAreas.length : ℤ) < lab)) then
    Except.error "filter_lung_regions: Invalid label found in valid_regions."
  else
    let st := validRegions.foldl (filterStep regionAreas) ⟨-1, -1, -1, -1⟩
    let top := (if st.l1 ≠ -1 then [st.l1] else []) ++ (if st.l2 ≠ -1 then [st.l2] else [])
    Except.ok (top, decide (top.length < 2))

/-- The area-tally loop of `process_lung_regions` (lines 68–78): walk the
pixels in row-major order; positive labels above `n_labels` abort with a
hard error, otherwise `region_areas[label - 1] += 1`. -/
def areaTallyGo (n : ℕ) (L : IGrid) : List Pt → List ℤ → Except String (List ℤ)
  | [], acc => Except.ok acc
  | p :: ps, acc =>
    let lab := L p.1 p.2
    if 0 < lab then
      if (n : ℤ) < lab then
        Except.error "process_lung_regions: Detected a label greater than available regions."
      else areaTallyGo n L ps (acc.set (lab - 1).toNat (acc.getD (lab - 1).toNat 0 + 1))
    else areaTallyGo n L ps acc

/-- The extent filter of `process_lung_regions` (lines 81–93): keep label
`i + 1` iff row `i`'s bounding box satisfies `x_max − x_min < 350` and
`y_max − y_min < 350`.  A row is the 4-tuple (x_min, x_max, y_min, y_max). -/
def validRegionsOf (regions : List (ℤ × ℤ × ℤ × ℤ)) : List ℤ :=
  ((List.range regions.length).filter (fun i =>
    let r := regions.getD i (0, 0, 0, 0)
    decide (r.2.1 - r.1 < 350 ∧ r.2.2.2 - r.2.2.1 < 350))).map (fun i : ℕ => (i : ℤ) + 1)

/-- `process_lung_regions` (process_lung_regions.cpp lines 59–118): hard
error on an empty region table; tally per-label areas (hard error on an
oversized label); apply the extent filter; keep the top two by area when
more than two candidates remain, otherwise keep all candidates; finally
zero every pixel whose positive label was not kept.  The returned Bool
records whether the soft warning fired. -/
def processLungRegions (nrow ncol : ℕ) (labelImage : IGrid)
    (regions : List (ℤ × ℤ × ℤ × ℤ)) : Except String (IGrid × List ℤ × Bool) :=
  let n := regions.length
  if n = 0 then Except.error "process_lung_regions: No regions provided."
  else
    match areaTallyGo n labelImage (pixList nrow ncol) (List.replicate n 0) with
    | Except.error e => Except.error e
    | Except.ok regionAreas =>
      let validRegions := validRegionsOf regions
      match (if 2 < validRegions.length then filterLungRegions validRegions regionAreas
             else Except.ok (validRegions, false)) with
      | Except.error e => Except.error e
      | Except.ok (topTwo, warned) =>
        let img : IGrid := fun i j =>
          if i < nrow ∧ j < ncol ∧ 0 < labelImage i j ∧ ¬ (labelImage i j ∈ topTwo) then 0
          else labelImage i j
        Except.ok (img, topTwo, warned)

/-- Final contents of the caller's `label_image` argument after
`process_lung_regions` returns, in the explicit state-passing view of the
C++ buffers: the function takes its `IntegerMatrix` argument as an Rcpp
proxy of the caller's buffer, takes no clone, and the filtering loop writes
`label_image(i, j) = 0` (line 108) through that proxy, so after a
successful call the caller's buffer holds the processed image; the hard
error paths stop before any write. -/
def processLungRegionsArgAfter (nrow ncol : ℕ) (labelImage : IGrid)
    (regions : List (ℤ × ℤ × ℤ × ℤ)) : IGrid :=
  match processLungRegions nrow ncol labelImage regions with
  | Except.ok (img, _, _) => img
  | Except.error _ => labelImage

/-- First label of the list attaining the maximal value of `f`, written
after the spec's words for the selection of §4.5: a strict comparison
scan, so ties are won by the earlier element. -/
def argmaxFirst (f : ℤ → ℤ) (l : List ℤ) : Option ℤ :=
  l.foldl (fun acc c =>
    match acc with
    | none => some c
    | some b => if f c > f b then some c else some b) none

/-- The selection the spec describes for more than two candidates: rank by
area, keep exactly the top two, ties broken by first-encountered order —
the first argmax, then the first argmax of the list with that occurrence
removed.  This is the spec-side reference `filter_lung_regions` is compared
against in claim C4. -/
def specTopTwo (f : ℤ → ℤ) (l : List ℤ) : List ℤ :=
  match argmaxFirst f l with
  | none => []
  | some b =>
    match argmaxFirst f (l.erase b) with
    | none => [b]
    | some b2 => [b, b2]

/-- The collision guard of `_floodFill` (clear_border.cpp lines 23–25) over
exact arithmetic, returning the value actually painted: if the requested
fill colour `rc` is within `tol` of the target colour `tc`, it is perturbed
to `rc + tol + 1`.  For `T = double` the model is exact; for `T = int` the
repository only calls the guard with `tol = 0`, where the cast
`static_cast<int>(rc + 0.0 + 1)` is also exactly `rc + 1`. -/
def floodFillPaintValue (tc rc tol : ℚ) : ℚ :=
  if |tc - rc| ≤ tol then rc + tol + 1 else rc

/-- The row indices written by the top/bottom border loops of
`clear_border` (lines 203–208): rows `i` and `nrow − i − 1`, as C ints,
for each `i < ext` (the column coordinate ranges over `[0, ncol)` and is
always in bounds). -/
def borderRowWrites (nrow ext : ℕ) : List ℤ :=
  (List.range ext).flatMap (fun i => [(i : ℤ), (nrow : ℤ) - i - 1])

/-- The column indices written by the left/right border loops of
`clear_border` (lines 211–216): columns `i` and `ncol − i − 1`. -/
def borderColWrites (ncol ext : ℕ) : List ℤ :=
  (List.range ext).flatMap (fun i => [(i : ℤ), (ncol : ℤ) - i - 1])

/-- A 2×2 raster whose nonzero cells touch only diagonally; used to witness
that `bwlabel` gives them distinct labels. -/
def diagGrid : QGrid := fun x y => if x = y then 1 else 0

/-- A 5×5 raster with two isolated nonzero pixels: one at the centre `(2, 2)`
(never on the border frame for `buffer_size = 0`) and one at the corner
`(0, 0)` (on the frame); used to witness the border-clearing round trip. -/
def c2Grid : QGrid := fun i j =>
  if i = 2 ∧ j = 2 then 1 else if i = 0 ∧ j = 0 then 1 else 0

/-- A 1×3 label image with labels 1, 2, 3; used to witness claims about
`process_lung_regions`. -/
def c8Grid : IGrid := fun _ j => (j : ℤ) + 1

/-- Three one-pixel bounding-box rows for `c8Grid`'s labels. -/
def c8Regions : List (ℤ × ℤ × ℤ × ℤ) := [(0, 0, 0, 0), (0, 0, 1, 1), (0, 0, 2, 2)]

/-- The image `process_lung_regions` produces on `c8Grid`/`c8Regions`: the
top-two labels 1 and 2 survive, label 3 is zeroed. -/
def c4Img : IGrid := fun i j =>
  if i < 1 ∧ j < 3 ∧ 0 < c8Grid i j ∧ ¬ (c8Grid i j ∈ ([1, 2] : List ℤ)) then 0
  else c8Grid i j

/-- `regionprops_bbox`'s running extents for one label:
`(x_min, x_max, y_min, y_max)`. -/
structure BBoxAcc where
  x_min : ℤ
  x_max : ℤ
  y_min : ℤ
  y_max : ℤ
deriving DecidableEq

/-- One pixel visit of `regionprops_bbox`'s scan (lines 23–32): when the
pixel carries the label, lower/raise the running bounds. -/
def bboxStep (lab : ℤ) (L : IGrid) (acc : BBoxAcc) (p : Pt) : BBoxAcc :=
  if L p.1 p.2 = lab then
    { x_min := if (p.1 : ℤ) < acc.x_min then (p.1 : ℤ) else acc.x_min
      x_max := if (p.1 : ℤ) > acc.x_max then (p.1 : ℤ) else acc.x_max
      y_min := if (p.2 : ℤ) < acc.y_min then (p.2 : ℤ) else acc.y_min
      y_max := if (p.2 : ℤ) > acc.y_max then (p.2 : ℤ) else acc.y_max }
  else acc

/-- `regionprops_bbox` (regionprops_bbox.cpp lines 8–50): for each label
`1..num_labels` scan the whole image updating running bounds initialised to
`(nrow, −1, ncol, −1)`; row `label − 1` of the output holds the bounds, or
the `NA_INTEGER` sentinel (modelled as `none`) when `x_max` stayed `−1`,
i.e. no pixel carries the label. -/
def regionpropsBbox (nrow ncol : ℕ) (L : IGrid) (num : ℕ) :
    List (Option (ℤ × ℤ × ℤ × ℤ)) :=
  (List.range num).map (fun k : ℕ =>
    let acc := (pixList nrow ncol).foldl (bboxStep ((k : ℤ) + 1) L)
      ⟨(nrow : ℤ), -1, (ncol : ℤ), -1⟩
    if acc.x_max ≠ -1 then some (acc.x_min, acc.x_max, acc.y_min, acc.y_max) else none)

/-- The loop invariant of `_bwlabel`'s labelling scan after `t` visited
positions: `R` is the current label grid and `k` the next fresh label.
Zero-source cells stay 0; nonzero cells are unvisited (`-1`) or carry a
label in `[1, k)`; cells of one component carry equal values, distinct
components never share a positive label; every label below `k` is used;
visited cells are never `-1`; and each assigned label has a cell preceding
(in storage order) every cell with a larger label and every unvisited
cell. -/
structure BwInv (sx sy : ℕ) (src : QGrid) (t : ℕ) (R : IGrid) (k : ℕ) : Prop where
  oob : ∀ a b : ℕ, ¬(a < sx ∧ b < sy) → R a b = 0
  zero : ∀ a b : ℕ, a < sx → b < sy → src a b = 0 → R a b = 0
  vals : ∀ a b : ℕ, a < sx → b < sy → src a b ≠ 0 → R a b = -1 ∨ (1 ≤ R a b ∧ R a b < k)
  uniform : ∀ p q : Pt, inB sx sy p → inB sx sy q → src p.1 p.2 ≠ 0 → src q.1 q.2 ≠ 0 →
    connNZ sx sy src p q → R p.1 p.2 = R q.1 q.2
  inj : ∀ p q : Pt, inB sx sy p → inB sx sy q → 1 ≤ R p.1 p.2 → R p.1 p.2 = R q.1 q.2 →
    connNZ sx sy src p q
  surj : ∀ j : ℕ, 1 ≤ j → j < k → ∃ p : Pt, inB sx sy p ∧ R p.1 p.2 = (j : ℤ)
  visited : ∀ p : Pt, inB sx sy p → scanIdx sx p < t → R p.1 p.2 ≠ -1
  order : ∀ j : ℕ, 1 ≤ j → j < k → ∃ p : Pt, inB sx sy p ∧ R p.1 p.2 = (j : ℤ) ∧
    scanIdx sx p < t ∧
    ∀ q : Pt, inB sx sy q → ((j : ℤ) < R q.1 q.2 ∨ R q.1 q.2 = -1) →
      scanIdx sx p < scanIdx sx q
  kpos : 1 ≤ k

/-- The loop invariant of `_floodFill`'s outer stack loop, relating the
current grid `M` and stack `s` to the original grid `m` and the seed:
every repainted cell carries `rc` and lies in the seed's component; stack
entries are component cells whose original value is `tc`; no painted cell
has a vertical neighbour still holding `tc` (painted spans are maximal
runs); a matching horizontal neighbour of a painted cell is always covered
by a pending stack seed below it in its own column; and the seed is painted
or still pending. -/
structure FillInv (sx sy : ℕ) (tc rc : ℤ) (m : IGrid) (seed : Pt)
    (M : IGrid) (s : List Pt) : Prop where
  base : ∀ a b : ℕ, M a b = m a b ∨
    (inB sx sy (a, b) ∧ M a b = rc ∧ conn sx sy tc m seed (a, b))
  stack : ∀ t ∈ s, inB sx sy t ∧ conn sx sy tc m seed t ∧ m t.1 t.2 = tc
  vert : ∀ a b : ℕ, inB sx sy (a, b) → M a b = rc →
    ∀ c : ℕ, (c + 1 = b ∨ b + 1 = c) → c < sy → M a c ≠ tc
  horiz : ∀ a b : ℕ, inB sx sy (a, b) → M a b = rc →
    ∀ a' : ℕ, (a' + 1 = a ∨ a + 1 = a') → a' < sx → M a' b = tc →
      ∃ t ∈ s, t.1 = a' ∧ t.2 ≤ b ∧ ∀ c, t.2 ≤ c → c ≤ b → M a' c = tc
  seedP : M seed.1 seed.2 = rc ∨ seed ∈ s

/-! ### Basic properties of the scan primitives -/

lemma stopY_eq (sy : ℕ) (tc : ℤ) (m : IGrid) (x y : ℕ) :
    stopY sy tc m x y = if y < sy ∧ m x y = tc then stopY sy tc m x (y + 1) else y := by
  rw [stopY]

lemma stopY_spec (sy : ℕ) (tc : ℤ) (m : IGrid) (x : ℕ) (y : ℕ) :
    y ≤ stopY sy tc m x y ∧
    (∀ c, y ≤ c → c < stopY sy tc m x y → c < sy ∧ m x c = tc) ∧
    ¬(stopY sy tc m x y < sy ∧ m x (stopY sy tc m x y) = tc) ∧
    (y ≤ sy → stopY sy tc m x y ≤ sy) := by
  have key : ∀ d y, sy - y ≤ d →
      y ≤ stopY sy tc m x y ∧
      (∀ c, y ≤ c → c < stopY sy tc m x y → c < sy ∧ m x c = tc) ∧
      ¬(stopY sy tc m x y < sy ∧ m x (stopY sy tc m x y) = tc) ∧
      (y ≤ sy → stopY sy tc m x y ≤ sy) := by
    intro d
    induction d with
    | zero =>
      intro y hy
      rw [stopY_eq]
      have hys : sy ≤ y := by omega
      have hcond : ¬(y < sy ∧ m x y = tc) := by
        rintro ⟨h1, _⟩; omega
      rw [if_neg hcond]
      refine ⟨le_rfl, ?_, hcond, fun h => h⟩
      intro c h1 h2; omega
    | succ d ih =>
      intro y hy
      rw [stopY_eq]
      by_cases hcond : y < sy ∧ m x y = tc
      · rw [if_pos hcond]
        obtain ⟨ih1, ih2, ih3, ih4⟩ := ih (y + 1) (by omega)
        refine ⟨by omega, ?_, ih3, fun _ => ih4 (by omega)⟩
        intro c h1 h2
        rcases Nat.eq_or_lt_of_le h1 with h | h
        · exact ⟨h ▸ hcond.1, h ▸ hcond.2⟩
        · exact ih2 c (by omega) h2
      · rw [if_neg hcond]
        refine ⟨le_rfl, ?_, hcond, fun h => h⟩
        intro c h1 h2; omega
  exact key (sy - y) y le_rfl

lemma stopY_gt (sy : ℕ) (tc : ℤ) (m : IGrid) (x y b : ℕ)
    (hseg : ∀ c, y ≤ c → c ≤ b → m x c = tc) (hb : b < sy) (hyb : y ≤ b) :
    b < stopY sy tc m x y := by
  by_contra h
  obtain ⟨h1, _, h3, _⟩ := stopY_spec sy tc m x y
  exact h3 ⟨by omega, hseg _ h1 (by omega)⟩

lemma stopY_congr (sy : ℕ) (tc : ℤ) (m1 m2 : IGrid) (x : ℕ) (y : ℕ)
    (hag : ∀ c, y ≤ c → m1 x c = m2 x c) :
    stopY sy tc m1 x y = stopY sy tc m2 x y := by
  have key : ∀ d y, sy - y ≤ d → (∀ c, y ≤ c → m1 x c = m2 x c) →
      stopY sy tc m1 x y = stopY sy tc m2 x y := by
    intro d
    induction d with
    | zero =>
      intro y hy hag
      rw [stopY_eq sy tc m1 x y, stopY_eq sy tc m2 x y]
      have hcond : ¬(y < sy ∧ m1 x y = tc) := by rintro ⟨h1, _⟩; omega
      have hcond2 : ¬(y < sy ∧ m2 x y = tc) := by rintro ⟨h1, _⟩; omega
      rw [if_neg hcond, if_neg hcond2]
    | succ d ih =>
      intro y hy hag
      rw [stopY_eq sy tc m1 x y, stopY_eq sy tc m2 x y]
      have heq : m1 x y = m2 x y := hag y le_rfl
      by_cases hcond : y < sy ∧ m1 x y = tc
      · rw [if_pos hcond, if_pos (by rw [← heq]; exact hcond)]
        exact ih (y + 1) (by omega) (fun c hc => hag c (by omega))
      · rw [if_neg hcond, if_neg (by rw [← heq]; exact hcond)]
  exact key (sy - y) y le_rfl hag

lemma upWalk_spec (tc : ℤ) (m : IGrid) (x : ℕ) : ∀ y,
    (m x y ≠ tc → upWalk tc m x y = y + 1) ∧
    (m x y = tc → upWalk tc m x y ≤ y ∧
      (∀ c, upWalk tc m x y ≤ c → c ≤ y → m x c = tc) ∧
      (upWalk tc m x y = 0 ∨ m x (upWalk tc m x y - 1) ≠ tc)) := by
  intro y
  induction y with
  | zero =>
    constructor
    · intro h; simp [upWalk, h]
    · intro h
      simp only [upWalk, if_pos h]
      refine ⟨le_rfl, ?_, Or.inl (by trivial)⟩
      intro c h1 h2
      have : c = 0 := by omega
      rw [this]; exact h
  | succ y ih =>
    constructor
    · intro h; simp [upWalk, h]
    · intro h
      simp only [upWalk, if_pos h]
      by_cases hy : m x y = tc
      · obtain ⟨w1, w2, w3⟩ := ih.2 hy
        refine ⟨by omega, ?_, w3⟩
        intro c h1 h2
        rcases Nat.lt_or_ge c (y + 1) with hc | hc
        · exact w2 c h1 (by omega)
        · have : c = y + 1 := by omega
          rw [this]; exact h
      · rw [(ih.1 hy)]
        refine ⟨le_rfl, ?_, Or.inr (by simpa using hy)⟩
        intro c h1 h2
        have : c = y + 1 := by omega
        rw [this]; exact h

lemma downScan_neg (sx sy : ℕ) (tc rc : ℤ) (m : IGrid) (x y : ℕ) (sl sr : Bool)
    (h : ¬(y < sy ∧ m x y = tc)) :
    downScan sx sy tc rc m x y sl sr = (m, []) := by
  rw [downScan, dif_neg h]

lemma downScan_pos (sx sy : ℕ) (tc rc : ℤ) (m : IGrid) (x y : ℕ) (sl sr : Bool)
    (h : y < sy ∧ m x y = tc) :
    downScan sx sy tc rc m x y sl sr =
      ((downScan sx sy tc rc (paintCell rc m x y) x (y + 1)
          (slNext tc m x y sl) (srNext sx tc m x y sr)).1,
        pushesRow sx tc m x y sl sr ++
          (downScan sx sy tc rc (paintCell rc m x y) x (y + 1)
            (slNext tc m x y sl) (srNext sx tc m x y sr)).2) := by
  conv_lhs => rw [downScan]
  rw [dif_pos h]
  have hner : ¬((x + 1 : ℕ) = x) := by omega
  by_cases hx : 0 < x
  · have hnel : ¬((x - 1 : ℕ) = x) := by omega
    by_cases hX : x < sx - 1 <;> rcases sl <;> rcases sr <;>
      by_cases hml : m (x - 1) y = tc <;> by_cases hmr : m (x + 1) y = tc <;>
        simp [paintCell, slNext, srNext, pushesRow, hx, hX, hml, hmr, hnel, hner] <;>
          first
            | exact ⟨rfl, rfl⟩
            | rfl
  · by_cases hX : x < sx - 1 <;> rcases sl <;> rcases sr <;>
      by_cases hmr : m (x + 1) y = tc <;>
        simp [paintCell, slNext, srNext, pushesRow, hx, hX, hmr, hner] <;>
          first
            | exact ⟨rfl, rfl⟩
            | rfl

lemma paintCell_ne (rc : ℤ) (m : IGrid) (x y a c : ℕ) (h : a ≠ x ∨ c ≠ y) :
    paintCell rc m x y a c = m a c := by
  have hne : ¬(a = x ∧ c = y) := by
    rcases h with h | h
    · rintro ⟨h1, _⟩; exact h h1
    · rintro ⟨_, h2⟩; exact h h2
  unfold paintCell
  rw [if_neg hne]

lemma paintCell_col (rc : ℤ) (m : IGrid) (x y a : ℕ) :
    ∀ c, y + 1 ≤ c → paintCell rc m x y a c = m a c := by
  intro c hc
  exact paintCell_ne rc m x y a c (Or.inr (by omega))

lemma downScan_fst (sx sy : ℕ) (tc rc : ℤ) (x : ℕ) :
    ∀ y (m : IGrid) (sl sr : Bool) (a b : ℕ),
      (downScan sx sy tc rc m x y sl sr).1 a b =
        if a = x ∧ y ≤ b ∧ b < stopY sy tc m x y then rc else m a b := by
  have key : ∀ d y (m : IGrid) (sl sr : Bool) (a b : ℕ), sy - y ≤ d →
      (downScan sx sy tc rc m x y sl sr).1 a b =
        if a = x ∧ y ≤ b ∧ b < stopY sy tc m x y then rc else m a b := by
    intro d
    induction d with
    | zero =>
      intro y m sl sr a b hy
      have hc : ¬(y < sy ∧ m x y = tc) := by rintro ⟨h1, _⟩; omega
      rw [downScan_neg sx sy tc rc m x y sl sr hc]
      have hstop : stopY sy tc m x y = y := by rw [stopY_eq, if_neg hc]
      rw [hstop, if_neg (by rintro ⟨_, h2, h3⟩; omega)]
    | succ d ih =>
      intro y m sl sr a b hy
      by_cases hc : y < sy ∧ m x y = tc
      · rw [downScan_pos sx sy tc rc m x y sl sr hc]
        dsimp only
        rw [ih (y + 1) (paintCell rc m x y) _ _ a b (by omega)]
        have hstop1 : stopY sy tc (paintCell rc m x y) x (y + 1) = stopY sy tc m x (y + 1) :=
          stopY_congr sy tc _ m x (y + 1) (fun c hc' => paintCell_col rc m x y x c hc')
        have hstop2 : stopY sy tc m x y = stopY sy tc m x (y + 1) := by
          rw [stopY_eq, if_pos hc]
        have hy0 : y < stopY sy tc m x y := by
          rw [hstop2]
          have := (stopY_spec sy tc m x (y + 1)).1
          omega
        rw [hstop1, ← hstop2]
        simp only [paintCell]
        split_ifs <;> first | rfl | omega
      · rw [downScan_neg sx sy tc rc m x y sl sr hc]
        have hstop : stopY sy tc m x y = y := by rw [stopY_eq, if_neg hc]
        rw [hstop, if_neg (by rintro ⟨_, h2, h3⟩; omega)]
  intro y m sl sr a b
  exact key (sy - y) y m sl sr a b le_rfl

lemma downScan_len (sx sy : ℕ) (tc rc : ℤ) (x : ℕ) :
    ∀ y (m : IGrid) (sl sr : Bool),
      (downScan sx sy tc rc m x y sl sr).2.length ≤ 2 * (stopY sy tc m x y - y) := by
  have key : ∀ d y (m : IGrid) (sl sr : Bool), sy - y ≤ d →
      (downScan sx sy tc rc m x y sl sr).2.length ≤ 2 * (stopY sy tc m x y - y) := by
    intro d
    induction d with
    | zero =>
      intro y m sl sr hy
      have hc : ¬(y < sy ∧ m x y = tc) := by rintro ⟨h1, _⟩; omega
      rw [downScan_neg sx sy tc rc m x y sl sr hc]
      simp
    | succ d ih =>
      intro y m sl sr hy
      by_cases hc : y < sy ∧ m x y = tc
      · rw [downScan_pos sx sy tc rc m x y sl sr hc]
        dsimp only
        have hrec := ih (y + 1) (paintCell rc m x y) (slNext tc m x y sl)
          (srNext sx tc m x y sr) (by omega)
        have hstop1 : stopY sy tc (paintCell rc m x y) x (y + 1) = stopY sy tc m x (y + 1) :=
          stopY_congr sy tc _ m x (y + 1) (fun c hc' => paintCell_col rc m x y x c hc')
        have hstop2 : stopY sy tc m x y = stopY sy tc m x (y + 1) := by
          rw [stopY_eq, if_pos hc]
        have hy1 : y + 1 ≤ stopY sy tc m x (y + 1) := (stopY_spec sy tc m x (y + 1)).1
        have hrow : (pushesRow sx tc m x y sl sr).length ≤ 2 := by
          unfold pushesRow
          rcases sl <;> rcases sr <;> split_ifs <;> simp
        rw [List.length_append]
        rw [hstop1] at hrec
        omega
      · rw [downScan_neg sx sy tc rc m x y sl sr hc]
        simp
  intro y m sl sr
  exact key (sy - y) y m sl sr le_rfl

lemma pushesRow_mem (sx : ℕ) (tc : ℤ) (m : IGrid) (x y : ℕ) (sl sr : Bool) (q : Pt) :
    q ∈ pushesRow sx tc m x y sl sr ↔
      ((sl = false ∧ 0 < x ∧ m (x - 1) y = tc) ∧ q = ((x - 1 : ℕ), y)) ∨
      ((sr = false ∧ x < sx - 1 ∧ m (x + 1) y = tc) ∧ q = ((x + 1 : ℕ), y)) := by
  by_cases hP : sl = false ∧ 0 < x ∧ m (x - 1) y = tc <;>
    by_cases hQ : sr = false ∧ x < sx - 1 ∧ m (x + 1) y = tc <;>
      simp [pushesRow, hP, hQ]

lemma downScan_pushes (sx sy : ℕ) (tc rc : ℤ) (x : ℕ) :
    ∀ y (m : IGrid) (sl sr : Bool) (q : Pt),
      q ∈ (downScan sx sy tc rc m x y sl sr).2 ↔
        ∃ b, y ≤ b ∧ b < stopY sy tc m x y ∧
          ((q = ((x - 1 : ℕ), b) ∧ 0 < x ∧ m (x - 1) b = tc ∧
              (if b = y then sl = false else m (x - 1) (b - 1) ≠ tc)) ∨
           (q = ((x + 1 : ℕ), b) ∧ x < sx - 1 ∧ m (x + 1) b = tc ∧
              (if b = y then sr = false else m (x + 1) (b - 1) ≠ tc))) := by
  have key : ∀ d y (m : IGrid) (sl sr : Bool) (q : Pt), sy - y ≤ d →
      (q ∈ (downScan sx sy tc rc m x y sl sr).2 ↔
        ∃ b, y ≤ b ∧ b < stopY sy tc m x y ∧
          ((q = ((x - 1 : ℕ), b) ∧ 0 < x ∧ m (x - 1) b = tc ∧
              (if b = y then sl = false else m (x - 1) (b - 1) ≠ tc)) ∨
           (q = ((x + 1 : ℕ), b) ∧ x < sx - 1 ∧ m (x + 1) b = tc ∧
              (if b = y then sr = false else m (x + 1) (b - 1) ≠ tc)))) := by
    intro d
    induction d with
    | zero =>
      intro y m sl sr q hy
      have hc : ¬(y < sy ∧ m x y = tc) := by rintro ⟨h1, _⟩; omega
      rw [downScan_neg sx sy tc rc m x y sl sr hc]
      have hstop : stopY sy tc m x y = y := by rw [stopY_eq, if_neg hc]
      rw [hstop]
      simp only [List.not_mem_nil, false_iff]
      rintro ⟨b, hb1, hb2, _⟩; omega
    | succ d ih =>
      intro y m sl sr q hy
      by_cases hc : y < sy ∧ m x y = tc
      · rw [downScan_pos sx sy tc rc m x y sl sr hc]
        dsimp only
        rw [List.mem_append, pushesRow_mem,
          ih (y + 1) (paintCell rc m x y) (slNext tc m x y sl) (srNext sx tc m x y sr) q
            (by omega)]
        have hstop1 : stopY sy tc (paintCell rc m x y) x (y + 1) = stopY sy tc m x (y + 1) :=
          stopY_congr sy tc _ m x (y + 1) (fun c hc' => paintCell_col rc m x y x c hc')
        have hstop2 : stopY sy tc m x y = stopY sy tc m x (y + 1) := by
          rw [stopY_eq, if_pos hc]
        have hy0 : y < stopY sy tc m x y := by
          rw [hstop2]
          have := (stopY_spec sy tc m x (y + 1)).1
          omega
        rw [hstop1, ← hstop2]
        constructor
        · rintro ((⟨⟨hsl, hx, hm⟩, hq⟩ | ⟨⟨hsr, hX, hm⟩, hq⟩) | ⟨b, hb1, hb2, hcase⟩)
          · exact ⟨y, le_rfl, hy0, Or.inl ⟨hq, hx, hm, by rw [if_pos rfl]; exact hsl⟩⟩
          · exact ⟨y, le_rfl, hy0, Or.inr ⟨hq, hX, hm, by rw [if_pos rfl]; exact hsr⟩⟩
          · rcases hcase with ⟨hq, hx, hm, hflag⟩ | ⟨hq, hX, hm, hflag⟩
            · refine ⟨b, by omega, hb2, Or.inl ⟨hq, hx, ?_, ?_⟩⟩
              · rw [paintCell_ne rc m x y (x - 1) b (Or.inr (by omega))] at hm
                exact hm
              · rw [if_neg (by omega)]
                by_cases hb : b = y + 1
                · rw [if_pos hb] at hflag
                  rw [slNext, if_pos hx] at hflag
                  have hnm : ¬ (m (x - 1) y = tc) := by simpa using hflag
                  rw [hb]
                  simpa using hnm
                · rw [if_neg hb] at hflag
                  rw [paintCell_ne rc m x y (x - 1) (b - 1) (Or.inr (by omega))] at hflag
                  exact hflag
            · refine ⟨b, by omega, hb2, Or.inr ⟨hq, hX, ?_, ?_⟩⟩
              · rw [paintCell_ne rc m x y (x + 1) b (Or.inr (by omega))] at hm
                exact hm
              · rw [if_neg (by omega)]
                by_cases hb : b = y + 1
                · rw [if_pos hb] at hflag
                  rw [srNext, if_pos hX] at hflag
                  have hnm : ¬ (m (x + 1) y = tc) := by simpa using hflag
                  rw [hb]
                  simpa using hnm
                · rw [if_neg hb] at hflag
                  rw [paintCell_ne rc m x y (x + 1) (b - 1) (Or.inr (by omega))] at hflag
                  exact hflag
        · rintro ⟨b, hb1, hb2, hcase⟩
          by_cases hby : b = y
          · subst hby
            rcases hcase with ⟨hq, hx, hm, hflag⟩ | ⟨hq, hX, hm, hflag⟩
            · rw [if_pos rfl] at hflag
              exact Or.inl (Or.inl ⟨⟨hflag, hx, hm⟩, hq⟩)
            · rw [if_pos rfl] at hflag
              exact Or.inl (Or.inr ⟨⟨hflag, hX, hm⟩, hq⟩)
          · refine Or.inr ?_
            rcases hcase with ⟨hq, hx, hm, hflag⟩ | ⟨hq, hX, hm, hflag⟩
            · rw [if_neg hby] at hflag
              refine ⟨b, by omega, hb2, Or.inl ⟨hq, hx, ?_, ?_⟩⟩
              · rw [paintCell_ne rc m x y (x - 1) b (Or.inr (by omega))]
                exact hm
              · by_cases hb : b = y + 1
                · rw [if_pos hb]
                  rw [slNext, if_pos hx]
                  have : ¬ (m (x - 1) y = tc) := by
                    have hb1' : b - 1 = y := by omega
                    rw [hb1'] at hflag
                    exact hflag
                  simpa using this
                · rw [if_neg hb]
                  rw [paintCell_ne rc m x y (x - 1) (b - 1) (Or.inr (by omega))]
                  exact hflag
            · rw [if_neg hby] at hflag
              refine ⟨b, by omega, hb2, Or.inr ⟨hq, hX, ?_, ?_⟩⟩
              · rw [paintCell_ne rc m x y (x + 1) b (Or.inr (by omega))]
                exact hm
              · by_cases hb : b = y + 1
                · rw [if_pos hb]
                  rw [srNext, if_pos hX]
                  have : ¬ (m (x + 1) y = tc) := by
                    have hb1' : b - 1 = y := by omega
                    rw [hb1'] at hflag
                    exact hflag
                  simpa using this
                · rw [if_neg hb]
                  rw [paintCell_ne rc m x y (x + 1) (b - 1) (Or.inr (by omega))]
                  exact hflag
      · rw [downScan_neg sx sy tc rc m x y sl sr hc]
        have hstop : stopY sy tc m x y = y := by rw [stopY_eq, if_neg hc]
        rw [hstop]
        simp only [List.not_mem_nil, false_iff]
        rintro ⟨b, hb1, hb2, _⟩; omega
  intro y m sl sr q
  exact key (sy - y) y m sl sr q le_rfl

lemma conn_of_seg (sx sy : ℕ) (tc : ℤ) (m : IGrid) (seed : Pt) (x a bb : ℕ)
    (hxs : x < sx)
    (hseg : ∀ c, a ≤ c → c ≤ bb → m x c = tc ∧ c < sy)
    (c0 : ℕ) (hc0a : a ≤ c0) (hc0b : c0 ≤ bb)
    (hconn : conn sx sy tc m seed (x, c0)) :
    ∀ c, a ≤ c → c ≤ bb → conn sx sy tc m seed (x, c) := by
  have down : ∀ c, c0 ≤ c → c ≤ bb → conn sx sy tc m seed (x, c) := by
    intro c hc
    induction c, hc using Nat.le_induction with
    | base => intro _; exact hconn
    | succ c hc ih =>
      intro hcb
      have hcur := ih (by omega)
      exact Relation.ReflTransGen.tail hcur
        ⟨Or.inl ⟨rfl, Or.inl rfl⟩, ⟨hxs, (hseg (c + 1) (by omega) hcb).2⟩,
          (hseg (c + 1) (by omega) hcb).1⟩
  have up : ∀ d c, a ≤ c → c ≤ c0 → c0 - c ≤ d → conn sx sy tc m seed (x, c) := by
    intro d
    induction d with
    | zero =>
      intro c h1 h2 h3
      have hcc : c = c0 := by omega
      rw [hcc]; exact hconn
    | succ d ih =>
      intro c h1 h2 h3
      by_cases hcc : c = c0
      · rw [hcc]; exact hconn
      · have hnext := ih (c + 1) (by omega) (by omega) (by omega)
        exact Relation.ReflTransGen.tail hnext
          ⟨Or.inl ⟨rfl, Or.inr rfl⟩, ⟨hxs, (hseg c h1 (by omega)).2⟩,
            (hseg c h1 (by omega)).1⟩
  intro c h1 h2
  rcases Nat.lt_or_ge c c0 with h | h
  · exact up (c0 - c) c h1 (by omega) le_rfl
  · exact down c h h2

theorem fillInv_step (sx sy : ℕ) (tc rc : ℤ) (m : IGrid) (seed : Pt)
    (hrc : rc ≠ tc) (M : IGrid) (pt : Pt) (rest : List Pt)
    (inv : FillInv sx sy tc rc m seed M (pt :: rest)) :
    FillInv sx sy tc rc m seed
      (downScan sx sy tc rc M pt.1 (upWalk tc M pt.1 pt.2) false false).1
      ((downScan sx sy tc rc M pt.1 (upWalk tc M pt.1 pt.2) false false).2.reverse ++ rest) := by
  obtain ⟨hptB, hptConn, hptM⟩ := inv.stack pt (List.mem_cons_self pt rest)
  have hxB : pt.1 < sx := hptB.1
  have hyB : pt.2 < sy := hptB.2
  set y0 := upWalk tc M pt.1 pt.2 with hy0def
  set S := stopY sy tc M pt.1 y0 with hSdef
  have hM' : ∀ a b, (downScan sx sy tc rc M pt.1 y0 false false).1 a b =
      if a = pt.1 ∧ y0 ≤ b ∧ b < S then rc else M a b :=
    fun a b => downScan_fst sx sy tc rc pt.1 y0 M false false a b
  have hps := downScan_pushes sx sy tc rc pt.1 y0 M false false
  have hspan : ∀ b, y0 ≤ b → b < S → b < sy ∧ M pt.1 b = tc :=
    fun b h1 h2 => (stopY_spec sy tc M pt.1 y0).2.1 b h1 h2
  have hMtc_m : ∀ a b, M a b = tc → m a b = tc := by
    intro a b h
    rcases inv.base a b with hb | ⟨_, hb, _⟩
    · rw [← hb]; exact h
    · exact absurd (hb.symm.trans h) hrc
  have hptSpan : M pt.1 pt.2 = tc → y0 ≤ pt.2 ∧ pt.2 < S := by
    intro h
    obtain ⟨w1, w2, _⟩ := (upWalk_spec tc M pt.1 pt.2).2 h
    exact ⟨w1, stopY_gt sy tc M pt.1 y0 pt.2 (fun c hc1 hc2 => w2 c hc1 hc2) hptB.2 w1⟩
  have habove : y0 = 0 ∨ M pt.1 (y0 - 1) ≠ tc := by
    by_cases h : M pt.1 pt.2 = tc
    · exact ((upWalk_spec tc M pt.1 pt.2).2 h).2.2
    · have heq : y0 = pt.2 + 1 := (upWalk_spec tc M pt.1 pt.2).1 h
      right
      rw [heq]
      simpa using h
  have hstopNM : S < sy → M pt.1 S ≠ tc := by
    intro hS hm'
    exact (stopY_spec sy tc M pt.1 y0).2.2.1 ⟨hS, hm'⟩
  have hspanConn : ∀ b, y0 ≤ b → b < S → conn sx sy tc m seed (pt.1, b) := by
    by_cases hMpt : M pt.1 pt.2 = tc
    · intro b hb1 hb2
      have hin := hptSpan hMpt
      refine conn_of_seg sx sy tc m seed pt.1 y0 (S - 1) hptB.1 ?_ pt.2 hin.1 (by omega)
        ?_ b hb1 (by omega)
      · intro c h1 h2
        have hc := hspan c h1 (by omega)
        exact ⟨hMtc_m _ _ hc.2, hc.1⟩
      · exact hptConn
    · intro b hb1 hb2
      have hy0pt : y0 = pt.2 + 1 := (upWalk_spec tc M pt.1 pt.2).1 hMpt
      have hc0 := hspan y0 le_rfl (by omega)
      have hanchor : conn sx sy tc m seed (pt.1, y0) :=
        Relation.ReflTransGen.tail hptConn
          ⟨Or.inl ⟨rfl, Or.inl (by omega)⟩, ⟨hptB.1, hc0.1⟩, hMtc_m _ _ hc0.2⟩
      refine conn_of_seg sx sy tc m seed pt.1 y0 (S - 1) hptB.1 ?_ y0 le_rfl (by omega)
        hanchor b hb1 (by omega)
      intro c h1 h2
      have hc := hspan c h1 (by omega)
      exact ⟨hMtc_m _ _ hc.2, hc.1⟩
  have hPfact : ∀ q ∈ (downScan sx sy tc rc M pt.1 y0 false false).2,
      inB sx sy q ∧ conn sx sy tc m seed q ∧ m q.1 q.2 = tc := by
    intro q hq
    obtain ⟨b, hb1, hb2, hcc⟩ := (hps q).1 hq
    rcases hcc with ⟨hq1, hx0, hmv, _⟩ | ⟨hq1, hx1, hmv, _⟩
    · have hb := hspan b hb1 hb2
      rw [hq1]
      refine ⟨⟨by omega, hb.1⟩, ?_, hMtc_m _ _ hmv⟩
      exact Relation.ReflTransGen.tail (hspanConn b hb1 hb2)
        ⟨Or.inr ⟨rfl, Or.inr (by omega)⟩, ⟨by omega, hb.1⟩, hMtc_m _ _ hmv⟩
    · have hb := hspan b hb1 hb2
      have hx1' : pt.1 + 1 < sx := by omega
      rw [hq1]
      refine ⟨⟨hx1', hb.1⟩, ?_, hMtc_m _ _ hmv⟩
      exact Relation.ReflTransGen.tail (hspanConn b hb1 hb2)
        ⟨Or.inr ⟨rfl, Or.inl rfl⟩, ⟨hx1', hb.1⟩, hMtc_m _ _ hmv⟩
  refine ⟨?_, ?_, ?_, ?_, ?_⟩
  · -- base
    intro a b
    rw [hM' a b]
    by_cases hsp : a = pt.1 ∧ y0 ≤ b ∧ b < S
    · rw [if_pos hsp]
      obtain ⟨ha, hb1, hb2⟩ := hsp
      subst ha
      have hb := hspan b hb1 hb2
      exact Or.inr ⟨⟨hptB.1, hb.1⟩, rfl, hspanConn b hb1 hb2⟩
    · rw [if_neg hsp]
      exact inv.base a b
  · -- stack
    intro t ht
    rcases List.mem_append.1 ht with ht | ht
    · exact hPfact t (List.mem_reverse.1 ht)
    · exact inv.stack t (List.mem_cons_of_mem pt ht)
  · -- vert
    intro a b hab hrc' c hadj hcs
    rw [hM' a b] at hrc'
    rw [hM' a c]
    by_cases hspc : a = pt.1 ∧ y0 ≤ c ∧ c < S
    · rw [if_pos hspc]
      exact hrc
    · rw [if_neg hspc]
      by_cases hspb : a = pt.1 ∧ y0 ≤ b ∧ b < S
      · obtain ⟨ha, hb1, hb2⟩ := hspb
        subst ha
        rcases hadj with h | h
        · by_cases hcy : y0 ≤ c
          · exact absurd ⟨rfl, hcy, by omega⟩ hspc
          · rcases habove with h0 | h0
            · exfalso; omega
            · have hcc : c = y0 - 1 := by omega
              rw [hcc]; exact h0
        · by_cases hcS : c < S
          · exact absurd ⟨rfl, by omega, hcS⟩ hspc
          · have hcc : c = S := by omega
            rw [hcc]; exact hstopNM (by omega)
      · rw [if_neg hspb] at hrc'
        exact inv.vert a b hab hrc' c hadj hcs
  · -- horiz
    intro a b hab hrc' a' hadj ha's hMta
    have hbsy : b < sy := hab.2
    rw [hM' a b] at hrc'
    rw [hM' a' b] at hMta
    have ha'nsp : ¬(a' = pt.1 ∧ y0 ≤ b ∧ b < S) := by
      intro hsp
      rw [if_pos hsp] at hMta
      exact hrc hMta
    rw [if_neg ha'nsp] at hMta
    by_cases hspb : a = pt.1 ∧ y0 ≤ b ∧ b < S
    · obtain ⟨ha, hb1, hb2⟩ := hspb
      subst ha
      have ha'ne : a' ≠ pt.1 := by
        rcases hadj with h | h <;> omega
      set u := upWalk tc M a' b with hudef
      obtain ⟨w1, w2, w3⟩ := (upWalk_spec tc M a' b).2 hMta
      rcases le_or_lt u y0 with hcase | hcase
      · -- seed pushed at row y0
        have hpush : ((a', y0) : Pt) ∈ (downScan sx sy tc rc M pt.1 y0 false false).2 := by
          refine (hps ((a', y0) : Pt)).2 ⟨y0, le_rfl, by omega, ?_⟩
          rcases hadj with hL | hR
          · have he : a' = pt.1 - 1 := by omega
            subst he
            left
            exact ⟨rfl, by omega, w2 y0 hcase hb1, by rw [if_pos rfl]⟩
          · have he : a' = pt.1 + 1 := by omega
            subst he
            right
            exact ⟨rfl, by omega, w2 y0 hcase hb1, by rw [if_pos rfl]⟩
        refine ⟨(a', y0), List.mem_append.2 (Or.inl (List.mem_reverse.2 hpush)), rfl, hb1, ?_⟩
        intro c hc1 hc2
        rw [hM' a' c, if_neg (fun hh => ha'ne hh.1)]
        exact w2 c (by omega) hc2
      · -- seed pushed at row u (top of the a' run)
        have hu1 : 1 ≤ u := by omega
        have hunm : M a' (u - 1) ≠ tc := by
          rcases w3 with h0 | h0
          · omega
          · exact h0
        have hpush : ((a', u) : Pt) ∈ (downScan sx sy tc rc M pt.1 y0 false false).2 := by
          refine (hps ((a', u) : Pt)).2 ⟨u, by omega, by omega, ?_⟩
          rcases hadj with hL | hR
          · have he : a' = pt.1 - 1 := by omega
            subst he
            left
            exact ⟨rfl, by omega, w2 u le_rfl w1, by rw [if_neg (by omega)]; exact hunm⟩
          · have he : a' = pt.1 + 1 := by omega
            subst he
            right
            exact ⟨rfl, by omega, w2 u le_rfl w1, by rw [if_neg (by omega)]; exact hunm⟩
        refine ⟨(a', u), List.mem_append.2 (Or.inl (List.mem_reverse.2 hpush)), rfl, w1, ?_⟩
        intro c hc1 hc2
        rw [hM' a' c, if_neg (fun hh => ha'ne hh.1)]
        exact w2 c hc1 hc2
    · rw [if_neg hspb] at hrc'
      obtain ⟨t, htmem, ht1, ht2, htseg⟩ := inv.horiz a b hab hrc' a' hadj ha's hMta
      rcases List.mem_cons.1 htmem with hteq | htrest
      · exfalso
        rw [hteq] at ht1 ht2 htseg
        have hMpt : M pt.1 pt.2 = tc := by
          rw [ht1]
          exact htseg pt.2 le_rfl ht2
        have hin := hptSpan hMpt
        have hbS : b < S := by
          by_contra hge
          have hSb : S ≤ b := by omega
          have hMS : M pt.1 S = tc := by
            rw [ht1]
            exact htseg S (by omega) hSb
          exact hstopNM (by omega) hMS
        exact ha'nsp ⟨ht1.symm, by omega, hbS⟩
      · refine ⟨t, List.mem_append.2 (Or.inr htrest), ht1, ht2, ?_⟩
        intro c hc1 hc2
        have hnsp : ¬(a' = pt.1 ∧ y0 ≤ c ∧ c < S) := by
          rintro ⟨hae, hcy, hcS⟩
          have hbns : ¬(y0 ≤ b ∧ b < S) := fun hh => ha'nsp ⟨hae, hh.1, hh.2⟩
          have hSb : S ≤ b := by omega
          have hMS : M pt.1 S = tc := by
            rw [← hae]
            exact htseg S (by omega) hSb
          exact hstopNM (by omega) hMS
        rw [hM' a' c, if_neg hnsp]
        exact htseg c hc1 hc2
  · -- seed
    rcases inv.seedP with hs | hs
    · left
      rw [hM' seed.1 seed.2]
      by_cases hsp : seed.1 = pt.1 ∧ y0 ≤ seed.2 ∧ seed.2 < S
      · rw [if_pos hsp]
      · rw [if_neg hsp]
        exact hs
    · rcases List.mem_cons.1 hs with he | hr
      · left
        rw [hM' seed.1 seed.2]
        by_cases hsp : seed.1 = pt.1 ∧ y0 ≤ seed.2 ∧ seed.2 < S
        · rw [if_pos hsp]
        · rw [if_neg hsp]
          by_cases hMs : M seed.1 seed.2 = tc
          · exfalso
            have hMs' : M pt.1 pt.2 = tc := by rw [← he]; exact hMs
            have hin := hptSpan hMs'
            exact hsp ⟨by rw [he], by rw [he]; exact hin.1, by rw [he]; exact hin.2⟩
          · rcases inv.base seed.1 seed.2 with hb | ⟨_, hb, _⟩
            · exfalso
              have hmseed : m seed.1 seed.2 = tc := by rw [he]; exact hptM
              exact hMs (hb.trans hmseed)
            · exact hb
      · exact Or.inr (List.mem_append.2 (Or.inr hr))

lemma matchCnt_step (sx sy : ℕ) (tc rc : ℤ) (M : IGrid) (x y0 : ℕ)
    (hrc : rc ≠ tc) (hx : x < sx) :
    matchCnt sx sy tc (downScan sx sy tc rc M x y0 false false).1
      + (stopY sy tc M x y0 - y0) = matchCnt sx sy tc M := by
  have hM' := downScan_fst sx sy tc rc x y0 M false false
  have hspan := (stopY_spec sy tc M x y0).2.1
  set S := stopY sy tc M x y0 with hS
  unfold matchCnt
  set F := (Finset.range sx) ×ˢ (Finset.range sy) with hF
  set spanF := (Finset.Ico y0 S).image (fun b => ((x, b) : Pt)) with hspF
  have hmemspan : ∀ p : Pt, p ∈ spanF ↔ p.1 = x ∧ y0 ≤ p.2 ∧ p.2 < S := by
    intro p
    simp only [hspF, Finset.mem_image, Finset.mem_Ico]
    constructor
    · rintro ⟨b, ⟨h1, h2⟩, h3⟩
      rw [← h3]
      exact ⟨rfl, h1, h2⟩
    · rintro ⟨h1, h2, h3⟩
      exact ⟨p.2, ⟨h2, h3⟩, by rw [← h1]⟩
  have hsub : spanF ⊆ F.filter (fun p => M p.1 p.2 = tc) := by
    intro p hp
    obtain ⟨h1, h2, h3⟩ := (hmemspan p).1 hp
    have hs := hspan p.2 h2 h3
    rw [Finset.mem_filter, hF, Finset.mem_product, Finset.mem_range, Finset.mem_range]
    refine ⟨⟨by omega, hs.1⟩, by rw [h1]; exact hs.2⟩
  have hfilter : F.filter (fun p : Pt => (downScan sx sy tc rc M x y0 false false).1 p.1 p.2 = tc)
      = F.filter (fun p : Pt => M p.1 p.2 = tc) \ spanF := by
    ext p
    simp only [Finset.mem_filter, Finset.mem_sdiff, hmemspan]
    rw [hM' p.1 p.2]
    by_cases hcond : p.1 = x ∧ y0 ≤ p.2 ∧ p.2 < S
    · rw [if_pos hcond]
      constructor
      · rintro ⟨_, hrc'⟩
        exact absurd hrc' hrc
      · rintro ⟨⟨_, _⟩, hns⟩
        exact absurd hcond hns
    · rw [if_neg hcond]
      constructor
      · rintro ⟨hf, hm⟩
        exact ⟨⟨hf, hm⟩, hcond⟩
      · rintro ⟨⟨hf, hm⟩, _⟩
        exact ⟨hf, hm⟩
  have hcards : spanF.card = S - y0 := by
    rw [hspF, Finset.card_image_of_injective _ (fun b1 b2 h => (Prod.ext_iff.1 h).2),
      Nat.card_Ico]
  have hle : spanF.card ≤ (F.filter (fun p : Pt => M p.1 p.2 = tc)).card :=
    Finset.card_le_card hsub
  rw [hfilter, Finset.card_sdiff hsub, hcards]
  rw [hcards] at hle
  exact Nat.sub_add_cancel hle

theorem fillLoop_total_inv (sx sy : ℕ) (tc rc : ℤ) (m : IGrid) (seed : Pt)
    (hrc : rc ≠ tc) :
    ∀ fuel (M : IGrid) (s : List Pt),
      2 * matchCnt sx sy tc M + s.length ≤ fuel →
      FillInv sx sy tc rc m seed M s →
      ∃ Mf, fillLoop sx sy tc rc fuel M s = some Mf ∧ FillInv sx sy tc rc m seed Mf [] := by
  intro fuel
  induction fuel with
  | zero =>
    intro M s hfuel inv
    cases s with
    | nil => exact ⟨M, rfl, inv⟩
    | cons pt rest =>
      exfalso
      simp only [List.length_cons] at hfuel
      omega
  | succ fuel ih =>
    intro M s hfuel inv
    cases s with
    | nil => exact ⟨M, rfl, inv⟩
    | cons pt rest =>
      have inv' := fillInv_step sx sy tc rc m seed hrc M pt rest inv
      have hx : pt.1 < sx := (inv.stack pt (List.mem_cons_self pt rest)).1.1
      have hmc := matchCnt_step sx sy tc rc M pt.1 (upWalk tc M pt.1 pt.2) hrc hx
      have hlen := downScan_len sx sy tc rc pt.1 (upWalk tc M pt.1 pt.2) M false false
      have hΦ : 2 * matchCnt sx sy tc
            (downScan sx sy tc rc M pt.1 (upWalk tc M pt.1 pt.2) false false).1
          + ((downScan sx sy tc rc M pt.1 (upWalk tc M pt.1 pt.2) false false).2.reverse
              ++ rest).length ≤ fuel := by
        rw [List.length_append, List.length_reverse]
        simp only [List.length_cons] at hfuel
        omega
      obtain ⟨Mf, hMf, hInvf⟩ := ih _ _ hΦ inv'
      exact ⟨Mf, by rw [fillLoop]; exact hMf, hInvf⟩

theorem fillInv_final (sx sy : ℕ) (tc rc : ℤ) (m : IGrid) (seed : Pt)
    (hseedB : inB sx sy seed)
    (Mf : IGrid) (inv : FillInv sx sy tc rc m seed Mf []) :
    ∀ a b, (conn sx sy tc m seed (a, b) → Mf a b = rc) ∧
      (¬ conn sx sy tc m seed (a, b) → Mf a b = m a b) := by
  have hseedrc : Mf seed.1 seed.2 = rc := by
    rcases inv.seedP with h | h
    · exact h
    · exact absurd h (List.not_mem_nil seed)
  have hpaint : ∀ p : Pt, conn sx sy tc m seed p → inB sx sy p ∧ Mf p.1 p.2 = rc := by
    intro p hp
    induction hp with
    | refl => exact ⟨hseedB, hseedrc⟩
    | tail hR hstep ih =>
      rename_i bmid cend
      obtain ⟨hadj, hinB, hmc⟩ := hstep
      refine ⟨hinB, ?_⟩
      rcases inv.base cend.1 cend.2 with hbase | ⟨_, hc, _⟩
      · exfalso
        have hMfc : Mf cend.1 cend.2 = tc := by rw [hbase]; exact hmc
        rcases hadj with ⟨h1, h2⟩ | ⟨h1, h2⟩
        · exact inv.vert bmid.1 bmid.2 ih.1 ih.2 cend.2
            (by rcases h2 with h | h
                · exact Or.inr h
                · exact Or.inl h) hinB.2 (by rw [h1]; exact hMfc)
        · obtain ⟨t, htmem, _⟩ := inv.horiz bmid.1 bmid.2 ih.1 ih.2 cend.1
            (by rcases h2 with h | h
                · exact Or.inr h
                · exact Or.inl h) hinB.1 (by rw [h1]; exact hMfc)
          exact absurd htmem (List.not_mem_nil t)
      · exact hc
  intro a b
  constructor
  · intro hc
    exact (hpaint (a, b) hc).2
  · intro hc
    rcases inv.base a b with h | ⟨_, _, hcc⟩
    · exact h
    · exact absurd hcc hc

theorem floodFill_spec (sx sy : ℕ) (m : IGrid) (seed : Pt) (rcArg : ℤ)
    (hseedB : inB sx sy seed)
    (hne : rcArg ≠ m seed.1 seed.2)
    (hm4 : ∀ a b, a < sx → b < sy → m a b ≠ rcArg) :
    ∀ a b, (conn sx sy (m seed.1 seed.2) m seed (a, b) →
        floodFill sx sy m seed rcArg a b = rcArg) ∧
      (¬ conn sx sy (m seed.1 seed.2) m seed (a, b) →
        floodFill sx sy m seed rcArg a b = m a b) := by
  have hInv0 : FillInv sx sy (m seed.1 seed.2) rcArg m seed m [seed] := by
    refine ⟨fun a b => Or.inl rfl, ?_, ?_, ?_, Or.inr (List.mem_cons_self seed [])⟩
    · intro t ht
      rw [List.mem_singleton] at ht
      rw [ht]
      exact ⟨hseedB, Relation.ReflTransGen.refl, rfl⟩
    · intro a b hab hrc' c hadjc hcs
      exact absurd hrc' (hm4 a b hab.1 hab.2)
    · intro a b hab hrc' a' hadja ha's hMta
      exact absurd hrc' (hm4 a b hab.1 hab.2)
  obtain ⟨Mf, hMf, hInvf⟩ := fillLoop_total_inv sx sy (m seed.1 seed.2) rcArg m seed hne
    (2 * matchCnt sx sy (m seed.1 seed.2) m + 1) m [seed] (by simp) hInv0
  have hff : ∀ a b, floodFill sx sy m seed rcArg a b = Mf a b := by
    intro a b
    show (fillLoop sx sy (m seed.1 seed.2)
        (if m seed.1 seed.2 = rcArg then rcArg + 1 else rcArg)
        (2 * matchCnt sx sy (m seed.1 seed.2) m + 1) m [seed]).getD m a b = Mf a b
    rw [if_neg (fun h => hne h.symm), hMf]
    rfl
  intro a b
  constructor
  · intro hc
    rw [hff a b]
    exact (fillInv_final sx sy (m seed.1 seed.2) rcArg m seed hseedB Mf hInvf a b).1 hc
  · intro hc
    rw [hff a b]
    exact (fillInv_final sx sy (m seed.1 seed.2) rcArg m seed hseedB Mf hInvf a b).2 hc

/-! ### Scan order of `_bwlabel` -/

lemma scanList_eq (sx sy : ℕ) : scanList sx sy = (List.range (sx * sy)).map (posOf sx) := by
  by_cases hsx : sx = 0
  · subst hsx
    simp [scanList]
  · induction sy with
    | zero => simp [scanList]
    | succ sy ih =>
      unfold scanList
      rw [List.range_succ, List.flatMap_append]
      unfold scanList at ih
      rw [ih]
      have hr : sx * (sy + 1) = sx * sy + sx := by ring
      rw [hr, List.range_add, List.map_append]
      congr 1
      simp only [List.flatMap_cons, List.flatMap_nil, List.append_nil, List.map_map,
        List.map_inj_left, Function.comp_apply]
      intro i hi
      rw [List.mem_range] at hi
      unfold posOf
      have hm1 : (sx * sy + i) % sx = i := by
        rw [Nat.add_comm, Nat.add_mul_mod_self_left]
        exact Nat.mod_eq_of_lt hi
      have hm2 : (sx * sy + i) / sx = sy := by
        rw [Nat.add_comm, Nat.add_mul_div_left _ _ (by omega : 0 < sx),
          Nat.div_eq_of_lt hi]
        omega
      rw [hm1, hm2]

lemma scanIdx_posOf (sx : ℕ) (n : ℕ) (hsx : 0 < sx) : scanIdx sx (posOf sx n) = n := by
  unfold scanIdx posOf
  show n / sx * sx + n % sx = n
  rw [Nat.mul_comm]
  exact Nat.div_add_mod n sx

lemma posOf_scanIdx (sx sy : ℕ) (p : Pt) (hp : inB sx sy p) : posOf sx (scanIdx sx p) = p := by
  obtain ⟨h1, h2⟩ := hp
  unfold scanIdx posOf
  have hsx : 0 < sx := by omega
  have hmod : (p.2 * sx + p.1) % sx = p.1 := by
    rw [Nat.mul_comm p.2 sx, Nat.mul_add_mod]
    exact Nat.mod_eq_of_lt h1
  have hdiv : (p.2 * sx + p.1) / sx = p.2 := by
    rw [Nat.mul_comm p.2 sx, Nat.mul_add_div hsx, Nat.div_eq_of_lt h1]
    omega
  rw [hmod, hdiv]

lemma scanIdx_lt (sx sy : ℕ) (p : Pt) (hp : inB sx sy p) : scanIdx sx p < sx * sy := by
  obtain ⟨h1, h2⟩ := hp
  unfold scanIdx
  calc p.2 * sx + p.1 < p.2 * sx + sx := by omega
  _ = (p.2 + 1) * sx := by ring
  _ ≤ sy * sx := Nat.mul_le_mul_right sx (by omega)
  _ = sx * sy := Nat.mul_comm sy sx

lemma posOf_inB (sx sy : ℕ) (n : ℕ) (hn : n < sx * sy) : inB sx sy (posOf sx n) := by
  have hsx : 0 < sx := by
    by_contra h
    have : sx = 0 := by omega
    rw [this] at hn
    omega
  constructor
  · exact Nat.mod_lt n hsx
  · show n / sx < sy
    rw [Nat.div_lt_iff_lt_mul hsx, Nat.mul_comm sy sx]
    exact hn

lemma scanIdx_inj (sx sy : ℕ) (p q : Pt) (hp : inB sx sy p) (hq : inB sx sy q)
    (h : scanIdx sx p = scanIdx sx q) : p = q := by
  have := posOf_scanIdx sx sy p hp
  rw [h, posOf_scanIdx sx sy q hq] at this
  exact this.symm

/-! ### Connectivity facts -/

lemma connNZ_endpoint (sx sy : ℕ) (src : QGrid) (a b : Pt) (h : connNZ sx sy src a b) :
    a = b ∨ (inB sx sy b ∧ src b.1 b.2 ≠ 0) := by
  induction h with
  | refl => exact Or.inl rfl
  | tail hR hstep ih => exact Or.inr ⟨hstep.2.1, hstep.2.2⟩

lemma connNZ_symm (sx sy : ℕ) (src : QGrid) (a b : Pt)
    (haB : inB sx sy a) (haN : src a.1 a.2 ≠ 0) (h : connNZ sx sy src a b) :
    connNZ sx sy src b a := by
  induction h with
  | refl => exact Relation.ReflTransGen.refl
  | tail hR hstep ih =>
    rename_i bmid cend
    have hbmid : inB sx sy bmid ∧ src bmid.1 bmid.2 ≠ 0 := by
      rcases connNZ_endpoint sx sy src a bmid hR with he | he
      · rw [← he]; exact ⟨haB, haN⟩
      · exact he
    exact Relation.ReflTransGen.head ⟨adj_symm hstep.1, hbmid.1, hbmid.2⟩ ih

lemma conn_neg1_iff (sx sy : ℕ) (src : QGrid) (R : IGrid) (seed : Pt)
    (hz : ∀ a b : ℕ, a < sx → b < sy → src a b = 0 → R a b = 0)
    (hu : ∀ p q : Pt, inB sx sy p → inB sx sy q → src p.1 p.2 ≠ 0 → src q.1 q.2 ≠ 0 →
      connNZ sx sy src p q → R p.1 p.2 = R q.1 q.2)
    (hseedB : inB sx sy seed) (hseedN : src seed.1 seed.2 ≠ 0)
    (hseedR : R seed.1 seed.2 = -1) :
    ∀ p, conn sx sy (-1) R seed p ↔ connNZ sx sy src seed p := by
  intro p
  constructor
  · intro h
    induction h with
    | refl => exact Relation.ReflTransGen.refl
    | tail hR hstep ih =>
      rename_i bmid cend
      obtain ⟨hadj, hinB, hR1⟩ := hstep
      have hnz : src cend.1 cend.2 ≠ 0 := by
        intro h0
        rw [hz cend.1 cend.2 hinB.1 hinB.2 h0] at hR1
        exact absurd hR1 (by decide)
      exact Relation.ReflTransGen.tail ih ⟨hadj, hinB, hnz⟩
  · intro h
    induction h with
    | refl => exact Relation.ReflTransGen.refl
    | tail hR hstep ih =>
      rename_i bmid cend
      obtain ⟨hadj, hinB, hnz⟩ := hstep
      have hconn : connNZ sx sy src seed cend := Relation.ReflTransGen.tail hR ⟨hadj, hinB, hnz⟩
      have hval : R cend.1 cend.2 = -1 := by
        rw [← hu seed cend hseedB hinB hseedN hnz hconn]
        exact hseedR
      exact Relation.ReflTransGen.tail ih ⟨hadj, hinB, hval⟩

/-! ### The labelling invariant of `_bwlabel` -/

theorem bwInv_init (sx sy : ℕ) (src : QGrid) :
    BwInv sx sy src 0 (res0 sx sy src) 1 := by
  refine ⟨?_, ?_, ?_, ?_, ?_, ?_, ?_, ?_, le_rfl⟩
  · intro a b h
    unfold res0
    rw [if_neg h]
  · intro a b h1 h2 h0
    unfold res0
    rw [if_pos ⟨h1, h2⟩, if_pos h0]
  · intro a b h1 h2 h0
    unfold res0
    rw [if_pos ⟨h1, h2⟩, if_neg h0]
    exact Or.inl rfl
  · intro p q hp hq hpn hqn _
    unfold res0
    rw [if_pos (⟨hp.1, hp.2⟩ : p.1 < sx ∧ p.2 < sy),
      if_pos (⟨hq.1, hq.2⟩ : q.1 < sx ∧ q.2 < sy), if_neg hpn, if_neg hqn]
  · intro p q hp hq h1 _
    exfalso
    unfold res0 at h1
    rw [if_pos (⟨hp.1, hp.2⟩ : p.1 < sx ∧ p.2 < sy)] at h1
    by_cases h0 : src p.1 p.2 = 0
    · rw [if_pos h0] at h1; omega
    · rw [if_neg h0] at h1; omega
  · intro j h1 h2
    omega
  · intro p _ h
    omega
  · intro j h1 h2
    omega

theorem bwInv_skip (sx sy : ℕ) (src : QGrid) (t : ℕ) (R : IGrid) (k : ℕ)
    (ht : t < sx * sy) (inv : BwInv sx sy src t R k)
    (hRt : R (posOf sx t).1 (posOf sx t).2 ≠ -1) :
    BwInv sx sy src (t + 1) R k := by
  refine ⟨inv.oob, inv.zero, inv.vals, inv.uniform, inv.inj, inv.surj, ?_, ?_, inv.kpos⟩
  · intro p hp hidx
    by_cases hlt : scanIdx sx p < t
    · exact inv.visited p hp hlt
    · have hq : scanIdx sx p = t := by omega
      have hpq : p = posOf sx t := by
        rw [← hq]
        exact (posOf_scanIdx sx sy p hp).symm
      rw [hpq]
      exact hRt
  · intro j h1 h2
    obtain ⟨p, hpB, hpR, hpt, hpall⟩ := inv.order j h1 h2
    exact ⟨p, hpB, hpR, by omega, hpall⟩

theorem bwInv_fill (sx sy : ℕ) (src : QGrid) (t : ℕ) (R : IGrid) (k : ℕ)
    (ht : t < sx * sy) (inv : BwInv sx sy src t R k)
    (hRt : R (posOf sx t).1 (posOf sx t).2 = -1) :
    BwInv sx sy src (t + 1) (floodFill sx sy R (posOf sx t) (k : ℤ)) (k + 1) := by
  set seed := posOf sx t with hseed
  have hsB : inB sx sy seed := posOf_inB sx sy t ht
  have hsx : 0 < sx := by
    by_contra h
    have h0 : sx = 0 := by omega
    rw [h0] at ht
    omega
  have hidxseed : scanIdx sx seed = t := scanIdx_posOf sx t hsx
  have hk1 : (1 : ℤ) ≤ (k : ℤ) := by exact_mod_cast inv.kpos
  have hsrcs : src seed.1 seed.2 ≠ 0 := by
    intro h0
    rw [inv.zero seed.1 seed.2 hsB.1 hsB.2 h0] at hRt
    exact absurd hRt (by decide)
  have hcomp : ∀ p : Pt, connNZ sx sy src seed p →
      inB sx sy p ∧ src p.1 p.2 ≠ 0 ∧ R p.1 p.2 = -1 := by
    intro p hp
    have hend : inB sx sy p ∧ src p.1 p.2 ≠ 0 := by
      rcases connNZ_endpoint sx sy src seed p hp with he | he
      · rw [← he]; exact ⟨hsB, hsrcs⟩
      · exact he
    refine ⟨hend.1, hend.2, ?_⟩
    rw [← inv.uniform seed p hsB hend.1 hsrcs hend.2 hp]
    exact hRt
  have hne : (k : ℤ) ≠ R seed.1 seed.2 := by
    rw [hRt]; omega
  have hm4 : ∀ a b, a < sx → b < sy → R a b ≠ (k : ℤ) := by
    intro a b h1 h2
    by_cases h0 : src a b = 0
    · rw [inv.zero a b h1 h2 h0]; omega
    · rcases inv.vals a b h1 h2 h0 with h | h
      · rw [h]; omega
      · omega
  have hspec := floodFill_spec sx sy R seed (k : ℤ) hsB hne hm4
  have hciff : ∀ p, conn sx sy (R seed.1 seed.2) R seed p ↔ connNZ sx sy src seed p := by
    rw [hRt]
    exact conn_neg1_iff sx sy src R seed inv.zero inv.uniform hsB hsrcs hRt
  have hRc : ∀ a b : ℕ, connNZ sx sy src seed (a, b) →
      floodFill sx sy R seed (k : ℤ) a b = (k : ℤ) :=
    fun a b h => (hspec a b).1 ((hciff (a, b)).2 h)
  have hRn : ∀ a b : ℕ, ¬ connNZ sx sy src seed (a, b) →
      floodFill sx sy R seed (k : ℤ) a b = R a b :=
    fun a b h => (hspec a b).2 (fun hcc => h ((hciff (a, b)).1 hcc))
  refine ⟨?_, ?_, ?_, ?_, ?_, ?_, ?_, ?_, by omega⟩
  · -- oob
    intro a b h
    rw [hRn a b (fun hc => h ⟨(hcomp (a, b) hc).1.1, (hcomp (a, b) hc).1.2⟩)]
    exact inv.oob a b h
  · -- zero
    intro a b h1 h2 h0
    rw [hRn a b (fun hc => (hcomp (a, b) hc).2.1 h0)]
    exact inv.zero a b h1 h2 h0
  · -- vals
    intro a b h1 h2 h0
    by_cases hc : connNZ sx sy src seed (a, b)
    · rw [hRc a b hc]
      right
      constructor
      · omega
      · push_cast; omega
    · rw [hRn a b hc]
      rcases inv.vals a b h1 h2 h0 with h | h
      · exact Or.inl h
      · right
        constructor
        · exact h.1
        · have : ((k : ℤ)) < ((k : ℕ) + 1 : ℕ) := by push_cast; omega
          omega
  · -- uniform
    intro p q hp hq hpn hqn hpq
    by_cases hcp : connNZ sx sy src seed p
    · have hcq : connNZ sx sy src seed q := Relation.ReflTransGen.trans hcp hpq
      rw [hRc p.1 p.2 hcp, hRc q.1 q.2 hcq]
    · have hcq : ¬ connNZ sx sy src seed q := by
        intro hcq
        have hqp : connNZ sx sy src q p := connNZ_symm sx sy src p q hp hpn hpq
        exact hcp (Relation.ReflTransGen.trans hcq hqp)
      rw [hRn p.1 p.2 hcp, hRn q.1 q.2 hcq]
      exact inv.uniform p q hp hq hpn hqn hpq
  · -- inj
    intro p q hp hq h1 heq
    by_cases hcp : connNZ sx sy src seed p <;> by_cases hcq : connNZ sx sy src seed q
    · exact Relation.ReflTransGen.trans
        (connNZ_symm sx sy src seed p hsB hsrcs hcp) hcq
    · exfalso
      rw [hRc p.1 p.2 hcp, hRn q.1 q.2 hcq] at heq
      by_cases h0 : src q.1 q.2 = 0
      · rw [inv.zero q.1 q.2 hq.1 hq.2 h0] at heq; omega
      · rcases inv.vals q.1 q.2 hq.1 hq.2 h0 with h | h
        · rw [h] at heq; omega
        · omega
    · exfalso
      rw [hRn p.1 p.2 hcp, hRc q.1 q.2 hcq] at heq
      by_cases h0 : src p.1 p.2 = 0
      · rw [inv.zero p.1 p.2 hp.1 hp.2 h0] at heq; omega
      · rcases inv.vals p.1 p.2 hp.1 hp.2 h0 with h | h
        · rw [h] at heq; omega
        · rw [hRn p.1 p.2 hcp] at h1; omega
    · rw [hRn p.1 p.2 hcp] at h1 heq
      rw [hRn q.1 q.2 hcq] at heq
      exact inv.inj p q hp hq h1 heq
  · -- surj
    intro j h1 h2
    by_cases hj : j < k
    · obtain ⟨p, hpB, hpR⟩ := inv.surj j h1 hj
      refine ⟨p, hpB, ?_⟩
      rw [hRn p.1 p.2 (fun hc => by rw [(hcomp p hc).2.2] at hpR; omega)]
      exact hpR
    · have hjk : j = k := by omega
      refine ⟨seed, hsB, ?_⟩
      rw [hRc seed.1 seed.2 Relation.ReflTransGen.refl, hjk]
  · -- visited
    intro p hp hidx
    by_cases hlt : scanIdx sx p < t
    · have hold := inv.visited p hp hlt
      by_cases hc : connNZ sx sy src seed (p.1, p.2)
      · rw [hRc p.1 p.2 hc]; omega
      · rw [hRn p.1 p.2 hc]; exact hold
    · have hq : scanIdx sx p = t := by omega
      have hpq : p = seed := by
        rw [hseed, ← hq]
        exact (posOf_scanIdx sx sy p hp).symm
      rw [hpq]
      rw [hRc seed.1 seed.2 Relation.ReflTransGen.refl]
      omega
  · -- order
    intro j h1 h2
    by_cases hj : j < k
    · obtain ⟨p, hpB, hpR, hpt, hpall⟩ := inv.order j h1 hj
      have hpnc : ¬ connNZ sx sy src seed p := by
        intro hc
        rw [(hcomp p hc).2.2] at hpR
        omega
      refine ⟨p, hpB, ?_, by omega, ?_⟩
      · rw [hRn p.1 p.2 hpnc]; exact hpR
      · intro q hqB hqC
        by_cases hc : connNZ sx sy src seed (q.1, q.2)
        · refine hpall q hqB (Or.inr ?_)
          exact (hcomp (q.1, q.2) hc).2.2
        · rw [hRn q.1 q.2 hc] at hqC
          exact hpall q hqB hqC
    · have hjk : j = k := by omega
      subst hjk
      refine ⟨seed, hsB, hRc seed.1 seed.2 Relation.ReflTransGen.refl, by omega, ?_⟩
      intro q hqB hqC
      by_cases hc : connNZ sx sy src seed (q.1, q.2)
      · exfalso
        rw [hRc q.1 q.2 hc] at hqC
        rcases hqC with h | h <;> omega
      · rw [hRn q.1 q.2 hc] at hqC
        have hqm1 : R q.1 q.2 = -1 := by
          rcases hqC with h | h
          · exfalso
            by_cases h0 : src q.1 q.2 = 0
            · rw [inv.zero q.1 q.2 hqB.1 hqB.2 h0] at h; omega
            · rcases inv.vals q.1 q.2 hqB.1 hqB.2 h0 with hv | hv
              · rw [hv] at h; omega
              · omega
          · exact h
        have hge : ¬ scanIdx sx q < t := by
          intro hlt
          exact inv.visited q hqB hlt hqm1
        have hne' : scanIdx sx q ≠ t := by
          intro he
          have hpq : q = seed := by
            rw [hseed, ← he]
            exact (posOf_scanIdx sx sy q hqB).symm
          rw [hpq] at hc
          exact hc Relation.ReflTransGen.refl
        omega

theorem bwInv_run (sx sy : ℕ) (src : QGrid) :
    ∀ n, n ≤ sx * sy →
      BwInv sx sy src n
        (((List.range n).map (posOf sx)).foldl (bwlabelStep sx sy) (res0 sx sy src, 1)).1
        (((List.range n).map (posOf sx)).foldl (bwlabelStep sx sy) (res0 sx sy src, 1)).2 := by
  intro n
  induction n with
  | zero =>
    intro _
    exact bwInv_init sx sy src
  | succ n ih =>
    intro hn
    rw [List.range_succ, List.map_append, List.foldl_append]
    simp only [List.map_cons, List.map_nil, List.foldl_cons, List.foldl_nil]
    set st := ((List.range n).map (posOf sx)).foldl (bwlabelStep sx sy) (res0 sx sy src, 1)
      with hst
    have hinv := ih (by omega)
    unfold bwlabelStep
    by_cases hc : st.1 (posOf sx n).1 (posOf sx n).2 = -1
    · rw [if_pos hc]
      exact bwInv_fill sx sy src n st.1 st.2 (by omega) hinv hc
    · rw [if_neg hc]
      exact bwInv_skip sx sy src n st.1 st.2 (by omega) hinv hc

theorem bwlabel_run (sx sy : ℕ) (src : QGrid) :
    BwInv sx sy src (sx * sy) (bwlabel sx sy src).1 ((bwlabel sx sy src).2 + 1) := by
  have h := bwInv_run sx sy src (sx * sy) le_rfl
  have hk := h.kpos
  show BwInv sx sy src (sx * sy)
    ((scanList sx sy).foldl (bwlabelStep sx sy) (res0 sx sy src, 1)).1
    (((scanList sx sy).foldl (bwlabelStep sx sy) (res0 sx sy src, 1)).2 - 1 + 1)
  rw [scanList_eq]
  have he : (((List.range (sx * sy)).map (posOf sx)).foldl (bwlabelStep sx sy)
      (res0 sx sy src, 1)).2 - 1 + 1
      = (((List.range (sx * sy)).map (posOf sx)).foldl (bwlabelStep sx sy)
      (res0 sx sy src, 1)).2 := by
    omega
  rw [he]
  exact h

lemma bwlabel_no_unvisited (sx sy : ℕ) (src : QGrid) :
    ∀ p : Pt, inB sx sy p → (bwlabel sx sy src).1 p.1 p.2 ≠ -1 :=
  fun p hp => (bwlabel_run sx sy src).visited p hp (scanIdx_lt sx sy p hp)

lemma bwlabel_oob (sx sy : ℕ) (src : QGrid) :
    ∀ a b : ℕ, ¬(a < sx ∧ b < sy) → (bwlabel sx sy src).1 a b = 0 :=
  (bwlabel_run sx sy src).oob

lemma bwlabel_zero_iff (sx sy : ℕ) (src : QGrid) (p : Pt) (hp : inB sx sy p) :
    src p.1 p.2 = 0 ↔ (bwlabel sx sy src).1 p.1 p.2 = 0 := by
  constructor
  · exact (bwlabel_run sx sy src).zero p.1 p.2 hp.1 hp.2
  · intro h
    by_contra h0
    rcases (bwlabel_run sx sy src).vals p.1 p.2 hp.1 hp.2 h0 with hv | hv
    · exact bwlabel_no_unvisited sx sy src p hp hv
    · omega

lemma bwlabel_pos (sx sy : ℕ) (src : QGrid) (p : Pt) (hp : inB sx sy p)
    (h0 : src p.1 p.2 ≠ 0) :
    1 ≤ (bwlabel sx sy src).1 p.1 p.2 ∧
      (bwlabel sx sy src).1 p.1 p.2 ≤ ((bwlabel sx sy src).2 : ℤ) := by
  rcases (bwlabel_run sx sy src).vals p.1 p.2 hp.1 hp.2 h0 with hv | hv
  · exact absurd hv (bwlabel_no_unvisited sx sy src p hp)
  · constructor
    · exact hv.1
    · have := hv.2
      push_cast at this ⊢
      omega

lemma bwlabel_conn_iff (sx sy : ℕ) (src : QGrid) (p q : Pt)
    (hp : inB sx sy p) (hq : inB sx sy q)
    (hpn : src p.1 p.2 ≠ 0) (hqn : src q.1 q.2 ≠ 0) :
    connNZ sx sy src p q ↔ (bwlabel sx sy src).1 p.1 p.2 = (bwlabel sx sy src).1 q.1 q.2 := by
  constructor
  · exact (bwlabel_run sx sy src).uniform p q hp hq hpn hqn
  · intro h
    exact (bwlabel_run sx sy src).inj p q hp hq (bwlabel_pos sx sy src p hp hpn).1 h

lemma bwlabel_surj (sx sy : ℕ) (src : QGrid) (j : ℕ) (h1 : 1 ≤ j)
    (h2 : j ≤ (bwlabel sx sy src).2) :
    ∃ p : Pt, inB sx sy p ∧ (bwlabel sx sy src).1 p.1 p.2 = (j : ℤ) :=
  (bwlabel_run sx sy src).surj j h1 (by omega)

lemma bwlabel_order (sx sy : ℕ) (src : QGrid) (j : ℕ) (h1 : 1 ≤ j)
    (h2 : j < (bwlabel sx sy src).2) :
    ∃ p : Pt, inB sx sy p ∧ (bwlabel sx sy src).1 p.1 p.2 = (j : ℤ) ∧
      ∀ q : Pt, inB sx sy q → (bwlabel sx sy src).1 q.1 q.2 = ((j : ℤ) + 1) →
        scanIdx sx p < scanIdx sx q := by
  obtain ⟨p, hpB, hpR, _, hall⟩ := (bwlabel_run sx sy src).order j h1 (by omega)
  refine ⟨p, hpB, hpR, ?_⟩
  intro q hqB hq
  exact hall q hqB (Or.inl (by omega))

lemma bwlabel_allzero (sx sy : ℕ) (src : QGrid)
    (h : ∀ p : Pt, inB sx sy p → src p.1 p.2 = 0) :
    (bwlabel sx sy src).2 = 0 ∧ ∀ a b : ℕ, (bwlabel sx sy src).1 a b = 0 := by
  constructor
  · by_contra hn
    obtain ⟨p, hpB, hpR⟩ := bwlabel_surj sx sy src 1 le_rfl (by omega)
    rw [(bwlabel_run sx sy src).zero p.1 p.2 hpB.1 hpB.2 (h p hpB)] at hpR
    omega
  · intro a b
    by_cases hin : a < sx ∧ b < sy
    · exact (bwlabel_run sx sy src).zero a b hin.1 hin.2 (h (a, b) hin)
    · exact bwlabel_oob sx sy src a b hin

/-! ### Claim C3: the collision guard of `_floodFill` -/

/-- Counterexample to claim C3 as stated: with `target = 10`,
`new_value = 5`, `tolerance = 5` (so `|new_value − target| ≤ tolerance`
and `tolerance ≥ 0`), the guard perturbs to `5 + 5 + 1 = 11`, and the
painted value differs from the target by only `1 ≤ 5` — NOT strictly more
than the tolerance, so filled pixels are not distinguishable from unfilled
matching pixels. -/
theorem C3_counterexample :
    floodFillPaintValue 10 5 5 = 11 ∧ ¬ (|floodFillPaintValue 10 5 5 - 10| > 5) := by
  have h1 : |(10 : ℚ) - 5| ≤ 5 := by
    rw [show (10 : ℚ) - 5 = 5 by norm_num, abs_of_nonneg (by norm_num : (0 : ℚ) ≤ 5)]
  constructor
  · unfold floodFillPaintValue
    rw [if_pos h1]
    norm_num
  · unfold floodFillPaintValue
    rw [if_pos h1]
    rw [show (5 : ℚ) + 5 + 1 - 10 = 1 by norm_num,
      abs_of_nonneg (by norm_num : (0 : ℚ) ≤ 1)]
    norm_num

/-- Claim C3, amended: the conclusion holds for every tolerance below 1
(which covers both calls the repository makes: the labeller's
`tolerance = 0` and `_floodFill`'s default `1e-3`): for `tolerance ≥ 0`
with `tolerance < 1` and `|new_value − target| ≤ tolerance`, the value
painted after the collision guard's perturbation differs from the target
by strictly more than the tolerance.  (For `tolerance ≥ 1` the claim fails,
see the counterexample.) -/
theorem C3_collision_guard_amended (tc rc tol : ℚ) (h0 : 0 ≤ tol) (h1 : tol < 1)
    (h2 : |rc - tc| ≤ tol) : |floodFillPaintValue tc rc tol - tc| > tol := by
  have hguard : |tc - rc| ≤ tol := by
    rw [abs_sub_comm]
    exact h2
  unfold floodFillPaintValue
  rw [if_pos hguard]
  have hlow : -tol ≤ rc - tc := (abs_le.1 h2).1
  have hpos : tol < rc + tol + 1 - tc := by linarith
  calc tol < rc + tol + 1 - tc := hpos
  _ ≤ |rc + tol + 1 - tc| := le_abs_self _

/-- Witness for C3's amended theorem at `target = 0`, `new_value = 0`,
`tolerance = 0`: the guard fires and paints `1`, at distance `1 > 0`. -/
theorem C3_witness :
    (0 : ℚ) ≤ 0 ∧ (0 : ℚ) < 1 ∧ |(0 : ℚ) - 0| ≤ 0 ∧
      |floodFillPaintValue 0 0 0 - 0| > 0 := by
  have ha : |(0 : ℚ) - 0| ≤ 0 := by
    rw [sub_zero, abs_zero]
  exact ⟨le_rfl, by norm_num, ha,
    C3_collision_guard_amended 0 0 0 le_rfl (by norm_num) ha⟩

/-! ### Claim C10: bounds of the border-frame loops of `clear_border` -/

/-- Claim C10: with `ext = buffer_size + 1`, under the precondition
`ext ≤ min(nrow, ncol)` every row index `i` / `nrow − i − 1` written by the
top/bottom loops and every column index `i` / `ncol − i − 1` written by the
left/right loops of `clear_border` lies in bounds (the other coordinate
ranges over the full extent and is in bounds by construction), so no
out-of-bounds access happens; when `ext` exceeds the row (resp. column)
count, some iteration computes a negative, out-of-bounds index. -/
theorem C10_border_loop_bounds (nrow ncol buffer : ℕ) :
    (buffer + 1 ≤ nrow →
      ∀ z ∈ borderRowWrites nrow (buffer + 1), 0 ≤ z ∧ z < (nrow : ℤ)) ∧
    (buffer + 1 ≤ ncol →
      ∀ z ∈ borderColWrites ncol (buffer + 1), 0 ≤ z ∧ z < (ncol : ℤ)) ∧
    (nrow < buffer + 1 → ∃ z ∈ borderRowWrites nrow (buffer + 1), z < 0) ∧
    (ncol < buffer + 1 → ∃ z ∈ borderColWrites ncol (buffer + 1), z < 0) := by
  have hmem : ∀ (n ext : ℕ) (z : ℤ), z ∈ borderRowWrites n ext ↔
      ∃ i, i < ext ∧ (z = (i : ℤ) ∨ z = (n : ℤ) - i - 1) := by
    intro n ext z
    unfold borderRowWrites
    simp only [List.mem_flatMap, List.mem_range, List.mem_cons, List.mem_singleton,
      List.not_mem_nil, or_false]
  have hmemc : ∀ (n ext : ℕ) (z : ℤ), z ∈ borderColWrites n ext ↔
      ∃ i, i < ext ∧ (z = (i : ℤ) ∨ z = (n : ℤ) - i - 1) := by
    intro n ext z
    unfold borderColWrites
    simp only [List.mem_flatMap, List.mem_range, List.mem_cons, List.mem_singleton,
      List.not_mem_nil, or_false]
  refine ⟨?_, ?_, ?_, ?_⟩
  · intro hle z hz
    obtain ⟨i, hi, h⟩ := (hmem nrow (buffer + 1) z).1 hz
    rcases h with h | h <;> subst h <;> exact ⟨by omega, by omega⟩
  · intro hle z hz
    obtain ⟨i, hi, h⟩ := (hmemc ncol (buffer + 1) z).1 hz
    rcases h with h | h <;> subst h <;> exact ⟨by omega, by omega⟩
  · intro hlt
    refine ⟨(nrow : ℤ) - nrow - 1, (hmem nrow (buffer + 1) _).2 ⟨nrow, by omega, Or.inr rfl⟩, ?_⟩
    omega
  · intro hlt
    refine ⟨(ncol : ℤ) - ncol - 1, (hmemc ncol (buffer + 1) _).2 ⟨ncol, by omega, Or.inr rfl⟩, ?_⟩
    omega

/-- Witness for C10 at concrete sizes: a 3×3 grid with `buffer_size = 1`
(all writes in bounds) and a 1-row grid with `buffer_size = 1` (a negative
row index occurs). -/
theorem C10_witness :
    (∀ z ∈ borderRowWrites 3 2, 0 ≤ z ∧ z < (3 : ℤ)) ∧
    (∃ z ∈ borderRowWrites 1 2, z < 0) :=
  ⟨(C10_border_loop_bounds 3 3 1).1 (by omega),
    (C10_border_loop_bounds 1 3 1).2.2.1 (by omega)⟩

/-! ### The `clear_border` pipeline -/

lemma getD_map_range (n : ℕ) (f : ℕ → Bool) (i : ℕ) (h : i < n) :
    ((List.range n).map f).getD i false = f i := by
  have hlen : i < ((List.range n).map f).length := by simpa using h
  rw [List.getD_eq_getElem _ _ hlen]
  simp

lemma mem_getBorderIndices (nrow ncol : ℕ) (labels : IGrid) (B : ℕ → ℕ → Bool) (v : ℤ) :
    v ∈ getBorderIndices nrow ncol labels B ↔
      ∃ p : Pt, p.1 < nrow ∧ p.2 < ncol ∧ B p.1 p.2 = true ∧ labels p.1 p.2 = v := by
  unfold getBorderIndices
  simp only [Finset.mem_image, Finset.mem_filter, Finset.mem_product, Finset.mem_range]
  constructor
  · rintro ⟨p, ⟨⟨h1, h2⟩, h3⟩, h4⟩
    exact ⟨p, h1, h2, h3, h4⟩
  · rintro ⟨p, h1, h2, h3, h4⟩
    exact ⟨p, ⟨⟨h1, h2⟩, h3⟩, h4⟩

lemma bwlabel_bounds (nrow ncol : ℕ) (g : QGrid) (i j : ℕ) (h1 : i < nrow) (h2 : j < ncol) :
    0 ≤ (bwlabel nrow ncol g).1 i j ∧
      (bwlabel nrow ncol g).1 i j ≤ ((bwlabel nrow ncol g).2 : ℤ) := by
  by_cases h0 : g i j = 0
  · have hz : (bwlabel nrow ncol g).1 i j = 0 :=
      (bwlabel_zero_iff nrow ncol g (i, j) ⟨h1, h2⟩).1 h0
    rw [hz]
    constructor
    · omega
    · positivity
  · have hp : 1 ≤ (bwlabel nrow ncol g).1 i j ∧
        (bwlabel nrow ncol g).1 i j ≤ ((bwlabel nrow ncol g).2 : ℤ) :=
      bwlabel_pos nrow ncol g (i, j) ⟨h1, h2⟩ h0
    exact ⟨by omega, hp.2⟩

lemma seqIndices_length (num : ℕ) : (seqIndices num).length = num + 1 := by
  rw [seqIndices, List.length_map, List.length_range]

lemma seqIndices_getD (num i : ℕ) (h : i < num + 1) : (seqIndices num).getD i 0 = (i : ℤ) := by
  have h2 : i < (seqIndices num).length := by rw [seqIndices_length]; omega
  rw [List.getD_eq_getElem _ _ h2]
  simp [seqIndices]

lemma createLabelMask_getD (indices : List ℤ) (S : Finset ℤ) (i : ℕ)
    (h : i < indices.length) :
    (createLabelMask indices S).getD i false = decide (indices.getD i 0 ∈ S) := by
  have h2 : i < (createLabelMask indices S).length := by
    rw [createLabelMask, List.length_map]; omega
  rw [List.getD_eq_getElem _ _ h2, List.getD_eq_getElem _ _ h]
  simp [createLabelMask]

lemma clearBorder_pixel (nrow ncol : ℕ) (g : QGrid) (buffer : ℕ) (bgval : ℚ) (i j : ℕ)
    (h1 : i < nrow) (h2 : j < ncol) :
    clearBorder nrow ncol g buffer bgval i j =
      if (bwlabel nrow ncol g).1 i j ∈
          getBorderIndices nrow ncol (bwlabel nrow ncol g).1
            (fun a b => borders nrow ncol (buffer + 1) a b)
      then bgval else g i j := by
  obtain ⟨hb0, hb1⟩ := bwlabel_bounds nrow ncol g i j h1 h2
  show clearBorderPixels nrow ncol g
      (createClearMask (bwlabel nrow ncol g).1
        (createLabelMask (seqIndices (bwlabel nrow ncol g).2)
          (getBorderIndices nrow ncol (bwlabel nrow ncol g).1
            (fun a b => borders nrow ncol (buffer + 1) a b)))) bgval i j = _
  have hmask : createClearMask (bwlabel nrow ncol g).1
      (createLabelMask (seqIndices (bwlabel nrow ncol g).2)
        (getBorderIndices nrow ncol (bwlabel nrow ncol g).1
          (fun a b => borders nrow ncol (buffer + 1) a b))) i j =
      decide ((bwlabel nrow ncol g).1 i j ∈
        getBorderIndices nrow ncol (bwlabel nrow ncol g).1
          (fun a b => borders nrow ncol (buffer + 1) a b)) := by
    show (createLabelMask (seqIndices (bwlabel nrow ncol g).2)
        (getBorderIndices nrow ncol (bwlabel nrow ncol g).1
          (fun a b => borders nrow ncol (buffer + 1) a b))).getD
        ((bwlabel nrow ncol g).1 i j).toNat false = _
    rw [createLabelMask_getD _ _ _ (by rw [seqIndices_length]; omega)]
    rw [seqIndices_getD _ _ (by omega)]
    rw [Int.toNat_of_nonneg hb0]
  unfold clearBorderPixels
  rw [hmask]
  by_cases hm : (bwlabel nrow ncol g).1 i j ∈
      getBorderIndices nrow ncol (bwlabel nrow ncol g).1
        (fun a b => borders nrow ncol (buffer + 1) a b)
  · rw [if_pos ⟨h1, h2, by simp [hm]⟩, if_pos hm]
  · rw [if_neg (by rintro ⟨_, _, hd⟩; simp [hm] at hd), if_neg hm]

/-! ### Claim C2: the border-clearing round trip -/

/-- Claim C2: for a grid whose nonzero pixels form exactly two 4-connected
components — witnessed by pixels `a` and `b` of the two components, with
every nonzero pixel connected to one of them and `a, b` not connected —
where `a`'s component has no pixel on the border frame (the marked set of
the outer `buffer_size + 1` rows and columns) and `b`'s component has at
least one pixel on it, `clear_border` keeps every pixel of `a`'s component
at its original value and sets every pixel of `b`'s component to `bgval`. -/
theorem C2_clear_border_roundtrip (nrow ncol : ℕ) (g : QGrid) (buffer : ℕ) (bgval : ℚ)
    (a b : Pt) (haB : inB nrow ncol a) (hbB : inB nrow ncol b)
    (haN : g a.1 a.2 ≠ 0) (hbN : g b.1 b.2 ≠ 0)
    (hsep : ¬ connNZ nrow ncol g a b)
    (hAout : ∀ p : Pt, connNZ nrow ncol g a p → borders nrow ncol (buffer + 1) p.1 p.2 = false)
    (hBin : ∃ p : Pt, connNZ nrow ncol g b p ∧ borders nrow ncol (buffer + 1) p.1 p.2 = true) :
    (∀ p : Pt, connNZ nrow ncol g a p →
      clearBorder nrow ncol g buffer bgval p.1 p.2 = g p.1 p.2) ∧
    (∀ p : Pt, connNZ nrow ncol g b p →
      clearBorder nrow ncol g buffer bgval p.1 p.2 = bgval) := by
  have hend : ∀ (r p : Pt), inB nrow ncol r → g r.1 r.2 ≠ 0 → connNZ nrow ncol g r p →
      inB nrow ncol p ∧ g p.1 p.2 ≠ 0 := by
    intro r p hrB hrN h
    rcases connNZ_endpoint nrow ncol g r p h with he | he
    · rw [← he]; exact ⟨hrB, hrN⟩
    · exact he
  constructor
  · intro p hp
    obtain ⟨hpB, hpN⟩ := hend a p haB haN hp
    rw [clearBorder_pixel nrow ncol g buffer bgval p.1 p.2 hpB.1 hpB.2]
    rw [if_neg ?_]
    intro hm
    obtain ⟨q, hq1, hq2, hq3, hq4⟩ := (mem_getBorderIndices nrow ncol
      (bwlabel nrow ncol g).1 (fun a b => borders nrow ncol (buffer + 1) a b)
      ((bwlabel nrow ncol g).1 p.1 p.2)).1 hm
    -- the frame cell q carries p's label, hence is in a's component
    have hqB : inB nrow ncol q := ⟨hq1, hq2⟩
    have hLp1 : 1 ≤ (bwlabel nrow ncol g).1 p.1 p.2 :=
      (bwlabel_pos nrow ncol g p hpB hpN).1
    have hqN : g q.1 q.2 ≠ 0 := by
      intro h0
      rw [(bwlabel_zero_iff nrow ncol g q hqB).1 h0] at hq4
      omega
    have hqp : connNZ nrow ncol g q p :=
      (bwlabel_conn_iff nrow ncol g q p hqB hpB hqN hpN).2 hq4
    have haq : connNZ nrow ncol g a q :=
      Relation.ReflTransGen.trans hp (connNZ_symm nrow ncol g q p hqB hqN hqp)
    rw [hAout q haq] at hq3
    exact absurd hq3 (by simp)
  · intro p hp
    obtain ⟨hpB, hpN⟩ := hend b p hbB hbN hp
    obtain ⟨w, hw1, hw2⟩ := hBin
    obtain ⟨hwB, hwN⟩ := hend b w hbB hbN hw1
    rw [clearBorder_pixel nrow ncol g buffer bgval p.1 p.2 hpB.1 hpB.2]
    rw [if_pos ?_]
    refine (mem_getBorderIndices nrow ncol (bwlabel nrow ncol g).1
      (fun a b => borders nrow ncol (buffer + 1) a b)
      ((bwlabel nrow ncol g).1 p.1 p.2)).2 ⟨w, hwB.1, hwB.2, hw2, ?_⟩
    -- w and p carry the same label: both connected to b
    have hwp : connNZ nrow ncol g w p :=
      Relation.ReflTransGen.trans (connNZ_symm nrow ncol g b w hbB hbN hw1) hp
    exact (bwlabel_conn_iff nrow ncol g w p hwB hpB hwN hpN).1 hwp

lemma connNZ_isolated (sx sy : ℕ) (src : QGrid) (a : Pt)
    (hiso : ∀ q : Pt, adj a q → inB sx sy q → src q.1 q.2 = 0) :
    ∀ p : Pt, connNZ sx sy src a p → p = a := by
  intro p h
  induction h with
  | refl => rfl
  | tail hR hstep ih =>
    rename_i b c
    rw [ih] at hstep
    exact absurd (hiso c hstep.1 hstep.2.1) hstep.2.2

lemma c2Grid_iso : ∀ q : Pt, adj (2, 2) q → inB 5 5 q → c2Grid q.1 q.2 = 0 := by
  rintro ⟨q1, q2⟩ hadj hB
  have hq : (q1 = 2 ∧ (q2 = 3 ∨ q2 = 1)) ∨ (q2 = 2 ∧ (q1 = 3 ∨ q1 = 1)) := by
    unfold adj adjV adjH at hadj
    dsimp only at hadj
    omega
  rcases hq with ⟨ha, hb | hb⟩ | ⟨ha, hb | hb⟩ <;> subst ha <;> subst hb <;> rfl

lemma c2Grid_sep : ¬ connNZ 5 5 c2Grid (2, 2) (0, 0) := by
  intro h
  have h2 := connNZ_isolated 5 5 c2Grid (2, 2) c2Grid_iso (0, 0) h
  exact absurd (congrArg Prod.fst h2) (by decide)

lemma c2Grid_out : ∀ p : Pt, connNZ 5 5 c2Grid (2, 2) p →
    borders 5 5 (0 + 1) p.1 p.2 = false := by
  intro p h
  rw [connNZ_isolated 5 5 c2Grid (2, 2) c2Grid_iso p h]
  decide

/-- Witness for C2 on the concrete 5×5 two-pixel raster `c2Grid` with
`buffer_size = 0` and `bgval = 0`: the interior pixel keeps its value and the
corner pixel is cleared. -/
theorem C2_witness :
    clearBorder 5 5 c2Grid 0 0 2 2 = c2Grid 2 2 ∧ clearBorder 5 5 c2Grid 0 0 0 0 = 0 := by
  have H := C2_clear_border_roundtrip 5 5 c2Grid 0 0 (2, 2) (0, 0)
    (by decide) (by decide) (by decide) (by decide)
    c2Grid_sep c2Grid_out
    ⟨(0, 0), Relation.ReflTransGen.refl, by decide⟩
  exact ⟨H.1 (2, 2) Relation.ReflTransGen.refl, H.2 (0, 0) Relation.ReflTransGen.refl⟩

/-! ### Claim C6: background pixels under `clear_border` -/

/-- Claim C6 counterexample: on the all-zero 1×1 raster with
`buffer_size = 0` and `bgval = 7`, `clear_border` repaints the (background,
value-0) pixel to 7.  Label 0 is collected from the border frame and is not
filtered out downstream: `indices = seq(0, num_labels)` includes 0, so the
background label is masked and painted like any other border label. -/
theorem C6_counterexample :
    clearBorder 1 1 (fun _ _ => 0) 0 7 0 0 = 7 ∧ ((7 : ℚ) ≠ 0) := by
  constructor
  · decide
  · norm_num

/-- Claim C6 (amended): a background pixel (value 0, label 0) is left at its
original value only when no border-frame cell is background; when label 0 is
collected from the frame — which happens whenever any frame cell holds 0 —
every in-bounds background pixel is repainted `bgval`. -/
theorem C6_background_pixels_amended (nrow ncol : ℕ) (g : QGrid) (buffer : ℕ) (bgval : ℚ)
    (i j : ℕ) (h1 : i < nrow) (h2 : j < ncol) (h0 : g i j = 0) :
    clearBorder nrow ncol g buffer bgval i j =
      if (0 : ℤ) ∈ getBorderIndices nrow ncol (bwlabel nrow ncol g).1
          (fun a b => borders nrow ncol (buffer + 1) a b)
      then bgval else g i j := by
  rw [clearBorder_pixel nrow ncol g buffer bgval i j h1 h2]
  have hz : (bwlabel nrow ncol g).1 i j = 0 :=
    (bwlabel_zero_iff nrow ncol g (i, j) ⟨h1, h2⟩).1 h0
  rw [hz]

/-- Witness for the amended C6 at the all-zero 1×1 raster. -/
theorem C6_witness :
    clearBorder 1 1 (fun _ _ => 0) 0 7 0 0 =
      (if (0 : ℤ) ∈ getBorderIndices 1 1 (bwlabel 1 1 (fun _ _ => 0)).1
          (fun a b => borders 1 1 (0 + 1) a b) then (7 : ℚ) else (fun _ _ => (0 : ℚ)) 0 0) :=
  C6_background_pixels_amended 1 1 (fun _ _ => 0) 0 7 0 0 (by decide) (by decide) rfl

/-! ### `regionprops_bbox` -/

lemma mem_pixList (nrow ncol : ℕ) (p : Pt) :
    p ∈ pixList nrow ncol ↔ p.1 < nrow ∧ p.2 < ncol := by
  unfold pixList
  constructor
  · intro h
    rw [List.mem_flatMap] at h
    obtain ⟨i, hi, hmem⟩ := h
    rw [List.mem_map] at hmem
    obtain ⟨j, hj, hpj⟩ := hmem
    rw [List.mem_range] at hi
    rw [List.mem_range] at hj
    rw [← hpj]
    exact ⟨hi, hj⟩
  · rintro ⟨h1, h2⟩
    rw [List.mem_flatMap]
    refine ⟨p.1, by rw [List.mem_range]; exact h1, ?_⟩
    rw [List.mem_map]
    exact ⟨p.2, by rw [List.mem_range]; exact h2, rfl⟩

lemma bboxFold_nomatch (lab : ℤ) (L : IGrid) (l : List Pt) (acc : BBoxAcc)
    (h : ∀ p ∈ l, L p.1 p.2 ≠ lab) :
    l.foldl (bboxStep lab L) acc = acc := by
  induction l generalizing acc with
  | nil => rfl
  | cons a l ih =>
    rw [List.foldl_cons, bboxStep, if_neg (h a (List.mem_cons_self a l))]
    exact ih acc (fun p hp => h p (List.mem_cons_of_mem a hp))

lemma bboxFold_mono (lab : ℤ) (L : IGrid) (l : List Pt) (acc : BBoxAcc) :
    (l.foldl (bboxStep lab L) acc).x_min ≤ acc.x_min ∧
    acc.x_max ≤ (l.foldl (bboxStep lab L) acc).x_max ∧
    (l.foldl (bboxStep lab L) acc).y_min ≤ acc.y_min ∧
    acc.y_max ≤ (l.foldl (bboxStep lab L) acc).y_max := by
  induction l generalizing acc with
  | nil => exact ⟨le_refl _, le_refl _, le_refl _, le_refl _⟩
  | cons a l ih =>
    rw [List.foldl_cons]
    obtain ⟨m1, m2, m3, m4⟩ := ih (bboxStep lab L acc a)
    have hstep : (bboxStep lab L acc a).x_min ≤ acc.x_min ∧
        acc.x_max ≤ (bboxStep lab L acc a).x_max ∧
        (bboxStep lab L acc a).y_min ≤ acc.y_min ∧
        acc.y_max ≤ (bboxStep lab L acc a).y_max := by
      rw [bboxStep]
      split
      · refine ⟨?_, ?_, ?_, ?_⟩ <;> dsimp only <;> split <;> omega
      · exact ⟨le_refl _, le_refl _, le_refl _, le_refl _⟩
    exact ⟨le_trans m1 hstep.1, le_trans hstep.2.1 m2,
      le_trans m3 hstep.2.2.1, le_trans hstep.2.2.2 m4⟩

lemma bboxFold_contain (lab : ℤ) (L : IGrid) (l : List Pt) (acc : BBoxAcc) :
    ∀ p ∈ l, L p.1 p.2 = lab →
      (l.foldl (bboxStep lab L) acc).x_min ≤ (p.1 : ℤ) ∧
      (p.1 : ℤ) ≤ (l.foldl (bboxStep lab L) acc).x_max ∧
      (l.foldl (bboxStep lab L) acc).y_min ≤ (p.2 : ℤ) ∧
      (p.2 : ℤ) ≤ (l.foldl (bboxStep lab L) acc).y_max := by
  induction l generalizing acc with
  | nil => intro p hp; exact absurd hp (List.not_mem_nil p)
  | cons a l ih =>
    intro p hp hlab
    rw [List.foldl_cons]
    rcases List.mem_cons.1 hp with rfl | hp'
    · obtain ⟨m1, m2, m3, m4⟩ := bboxFold_mono lab L l (bboxStep lab L acc p)
      have hstep : (bboxStep lab L acc p).x_min ≤ (p.1 : ℤ) ∧
          (p.1 : ℤ) ≤ (bboxStep lab L acc p).x_max ∧
          (bboxStep lab L acc p).y_min ≤ (p.2 : ℤ) ∧
          (p.2 : ℤ) ≤ (bboxStep lab L acc p).y_max := by
        rw [bboxStep, if_pos hlab]
        refine ⟨?_, ?_, ?_, ?_⟩ <;> dsimp only <;> split <;> omega
      exact ⟨le_trans m1 hstep.1, le_trans hstep.2.1 m2,
        le_trans m3 hstep.2.2.1, le_trans hstep.2.2.2 m4⟩
    · exact ih (bboxStep lab L acc a) p hp' hlab

lemma bboxFold_attain (lab : ℤ) (L : IGrid) (l : List Pt) (acc : BBoxAcc) :
    ((l.foldl (bboxStep lab L) acc).x_min = acc.x_min ∨
      ∃ p ∈ l, L p.1 p.2 = lab ∧ (l.foldl (bboxStep lab L) acc).x_min = (p.1 : ℤ)) ∧
    ((l.foldl (bboxStep lab L) acc).x_max = acc.x_max ∨
      ∃ p ∈ l, L p.1 p.2 = lab ∧ (l.foldl (bboxStep lab L) acc).x_max = (p.1 : ℤ)) ∧
    ((l.foldl (bboxStep lab L) acc).y_min = acc.y_min ∨
      ∃ p ∈ l, L p.1 p.2 = lab ∧ (l.foldl (bboxStep lab L) acc).y_min = (p.2 : ℤ)) ∧
    ((l.foldl (bboxStep lab L) acc).y_max = acc.y_max ∨
      ∃ p ∈ l, L p.1 p.2 = lab ∧ (l.foldl (bboxStep lab L) acc).y_max = (p.2 : ℤ)) := by
  induction l generalizing acc with
  | nil => exact ⟨Or.inl rfl, Or.inl rfl, Or.inl rfl, Or.inl rfl⟩
  | cons a l ih =>
    rw [List.foldl_cons]
    obtain ⟨i1, i2, i3, i4⟩ := ih (bboxStep lab L acc a)
    have hlift : ∀ v : ℤ,
        (v = (bboxStep lab L acc a).x_min → v = acc.x_min ∨ (L a.1 a.2 = lab ∧ v = (a.1 : ℤ))) ∧
        (v = (bboxStep lab L acc a).x_max → v = acc.x_max ∨ (L a.1 a.2 = lab ∧ v = (a.1 : ℤ))) ∧
        (v = (bboxStep lab L acc a).y_min → v = acc.y_min ∨ (L a.1 a.2 = lab ∧ v = (a.2 : ℤ))) ∧
        (v = (bboxStep lab L acc a).y_max → v = acc.y_max ∨ (L a.1 a.2 = lab ∧ v = (a.2 : ℤ))) := by
      intro v
      rw [bboxStep]
      by_cases hm : L a.1 a.2 = lab
      · rw [if_pos hm]
        refine ⟨?_, ?_, ?_, ?_⟩ <;> intro hv <;> dsimp only at hv <;> split at hv
        · exact Or.inr ⟨hm, hv⟩
        · exact Or.inl hv
        · exact Or.inr ⟨hm, hv⟩
        · exact Or.inl hv
        · exact Or.inr ⟨hm, hv⟩
        · exact Or.inl hv
        · exact Or.inr ⟨hm, hv⟩
        · exact Or.inl hv
      · rw [if_neg hm]
        exact ⟨fun hv => Or.inl hv, fun hv => Or.inl hv, fun hv => Or.inl hv,
          fun hv => Or.inl hv⟩
    constructor
    · rcases i1 with h | ⟨p, hp, hpl, hpe⟩
      · rcases (hlift _).1 h with h' | ⟨hla, hve⟩
        · exact Or.inl h'
        · exact Or.inr ⟨a, List.mem_cons_self a l, hla, hve⟩
      · exact Or.inr ⟨p, List.mem_cons_of_mem a hp, hpl, hpe⟩
    constructor
    · rcases i2 with h | ⟨p, hp, hpl, hpe⟩
      · rcases (hlift _).2.1 h with h' | ⟨hla, hve⟩
        · exact Or.inl h'
        · exact Or.inr ⟨a, List.mem_cons_self a l, hla, hve⟩
      · exact Or.inr ⟨p, List.mem_cons_of_mem a hp, hpl, hpe⟩
    constructor
    · rcases i3 with h | ⟨p, hp, hpl, hpe⟩
      · rcases (hlift _).2.2.1 h with h' | ⟨hla, hve⟩
        · exact Or.inl h'
        · exact Or.inr ⟨a, List.mem_cons_self a l, hla, hve⟩
      · exact Or.inr ⟨p, List.mem_cons_of_mem a hp, hpl, hpe⟩
    · rcases i4 with h | ⟨p, hp, hpl, hpe⟩
      · rcases (hlift _).2.2.2 h with h' | ⟨hla, hve⟩
        · exact Or.inl h'
        · exact Or.inr ⟨a, List.mem_cons_self a l, hla, hve⟩
      · exact Or.inr ⟨p, List.mem_cons_of_mem a hp, hpl, hpe⟩

lemma regionpropsBbox_getD (nrow ncol : ℕ) (L : IGrid) (num k : ℕ) (h : k < num) :
    (regionpropsBbox nrow ncol L num).getD k none =
      if ((pixList nrow ncol).foldl (bboxStep ((k : ℤ) + 1) L)
            ⟨(nrow : ℤ), -1, (ncol : ℤ), -1⟩).x_max ≠ -1
      then some (((pixList nrow ncol).foldl (bboxStep ((k : ℤ) + 1) L)
            ⟨(nrow : ℤ), -1, (ncol : ℤ), -1⟩).x_min,
          ((pixList nrow ncol).foldl (bboxStep ((k : ℤ) + 1) L)
            ⟨(nrow : ℤ), -1, (ncol : ℤ), -1⟩).x_max,
          ((pixList nrow ncol).foldl (bboxStep ((k : ℤ) + 1) L)
            ⟨(nrow : ℤ), -1, (ncol : ℤ), -1⟩).y_min,
          ((pixList nrow ncol).foldl (bboxStep ((k : ℤ) + 1) L)
            ⟨(nrow : ℤ), -1, (ncol : ℤ), -1⟩).y_max)
      else none := by
  have h2 : k < (regionpropsBbox nrow ncol L num).length := by
    rw [regionpropsBbox, List.length_map, List.length_range]; omega
  rw [List.getD_eq_getElem _ _ h2]
  simp only [regionpropsBbox, List.getElem_map, List.getElem_range]

/-- Claim C5: for every label `lab` in `1..num_labels`, if some in-bounds
pixel carries `lab` then row `lab − 1` of `regionprops_bbox`'s output holds a
bounding box that contains every pixel of `lab` (inclusive in both
coordinates) and whose four bounds are each attained by a pixel of `lab`
(minimality); if no pixel carries `lab`, the row is the NA sentinel. -/
theorem C5_regionprops_bbox (nrow ncol : ℕ) (L : IGrid) (num lab : ℕ)
    (h1 : 1 ≤ lab) (h2 : lab ≤ num) :
    ((∃ q : Pt, q.1 < nrow ∧ q.2 < ncol ∧ L q.1 q.2 = (lab : ℤ)) →
      ∃ r : ℤ × ℤ × ℤ × ℤ,
        (regionpropsBbox nrow ncol L num).getD (lab - 1) none = some r ∧
        (∀ p : Pt, p.1 < nrow → p.2 < ncol → L p.1 p.2 = (lab : ℤ) →
          r.1 ≤ (p.1 : ℤ) ∧ (p.1 : ℤ) ≤ r.2.1 ∧
          r.2.2.1 ≤ (p.2 : ℤ) ∧ (p.2 : ℤ) ≤ r.2.2.2) ∧
        (∃ p : Pt, p.1 < nrow ∧ p.2 < ncol ∧ L p.1 p.2 = (lab : ℤ) ∧ r.1 = (p.1 : ℤ)) ∧
        (∃ p : Pt, p.1 < nrow ∧ p.2 < ncol ∧ L p.1 p.2 = (lab : ℤ) ∧ r.2.1 = (p.1 : ℤ)) ∧
        (∃ p : Pt, p.1 < nrow ∧ p.2 < ncol ∧ L p.1 p.2 = (lab : ℤ) ∧ r.2.2.1 = (p.2 : ℤ)) ∧
        (∃ p : Pt, p.1 < nrow ∧ p.2 < ncol ∧ L p.1 p.2 = (lab : ℤ) ∧ r.2.2.2 = (p.2 : ℤ))) ∧
    ((∀ q : Pt, q.1 < nrow → q.2 < ncol → L q.1 q.2 ≠ (lab : ℤ)) →
      (regionpropsBbox nrow ncol L num).getD (lab - 1) none = none) := by
  have hk : lab - 1 < num := by omega
  have hcast : (((lab - 1 : ℕ) : ℤ) + 1) = (lab : ℤ) := by omega
  have hgetD := regionpropsBbox_getD nrow ncol L num (lab - 1) hk
  rw [hcast] at hgetD
  constructor
  · rintro ⟨q, hq1, hq2, hq3⟩
    have hqmem : q ∈ pixList nrow ncol := (mem_pixList nrow ncol q).2 ⟨hq1, hq2⟩
    have hcq := bboxFold_contain (lab : ℤ) L (pixList nrow ncol)
      ⟨(nrow : ℤ), -1, (ncol : ℤ), -1⟩ q hqmem hq3
    have hxmax : ((pixList nrow ncol).foldl (bboxStep ((lab : ℤ)) L)
        ⟨(nrow : ℤ), -1, (ncol : ℤ), -1⟩).x_max ≠ -1 := by
      have := hcq.2.1
      omega
    refine ⟨_, by rw [hgetD, if_pos hxmax], ?_, ?_, ?_, ?_, ?_⟩
    · intro p hp1 hp2 hp3
      exact bboxFold_contain (lab : ℤ) L (pixList nrow ncol)
        ⟨(nrow : ℤ), -1, (ncol : ℤ), -1⟩ p ((mem_pixList nrow ncol p).2 ⟨hp1, hp2⟩) hp3
    · rcases (bboxFold_attain (lab : ℤ) L (pixList nrow ncol)
        ⟨(nrow : ℤ), -1, (ncol : ℤ), -1⟩).1 with h | ⟨p, hp, hpl, hpe⟩
      · exfalso
        have hc1 := hcq.1
        have h' : ((pixList nrow ncol).foldl (bboxStep ((lab : ℤ)) L)
            ⟨(nrow : ℤ), -1, (ncol : ℤ), -1⟩).x_min = (nrow : ℤ) := h
        omega
      · obtain ⟨hpB1, hpB2⟩ := (mem_pixList nrow ncol p).1 hp
        exact ⟨p, hpB1, hpB2, hpl, hpe⟩
    · rcases (bboxFold_attain (lab : ℤ) L (pixList nrow ncol)
        ⟨(nrow : ℤ), -1, (ncol : ℤ), -1⟩).2.1 with h | ⟨p, hp, hpl, hpe⟩
      · exfalso
        have hc1 := hcq.2.1
        have h' : ((pixList nrow ncol).foldl (bboxStep ((lab : ℤ)) L)
            ⟨(nrow : ℤ), -1, (ncol : ℤ), -1⟩).x_max = (-1 : ℤ) := h
        omega
      · obtain ⟨hpB1, hpB2⟩ := (mem_pixList nrow ncol p).1 hp
        exact ⟨p, hpB1, hpB2, hpl, hpe⟩
    · rcases (bboxFold_attain (lab : ℤ) L (pixList nrow ncol)
        ⟨(nrow : ℤ), -1, (ncol : ℤ), -1⟩).2.2.1 with h | ⟨p, hp, hpl, hpe⟩
      · exfalso
        have hc1 := hcq.2.2.1
        have h' : ((pixList nrow ncol).foldl (bboxStep ((lab : ℤ)) L)
            ⟨(nrow : ℤ), -1, (ncol : ℤ), -1⟩).y_min = (ncol : ℤ) := h
        omega
      · obtain ⟨hpB1, hpB2⟩ := (mem_pixList nrow ncol p).1 hp
        exact ⟨p, hpB1, hpB2, hpl, hpe⟩
    · rcases (bboxFold_attain (lab : ℤ) L (pixList nrow ncol)
        ⟨(nrow : ℤ), -1, (ncol : ℤ), -1⟩).2.2.2 with h | ⟨p, hp, hpl, hpe⟩
      · exfalso
        have hc1 := hcq.2.2.2
        have h' : ((pixList nrow ncol).foldl (bboxStep ((lab : ℤ)) L)
            ⟨(nrow : ℤ), -1, (ncol : ℤ), -1⟩).y_max = (-1 : ℤ) := h
        omega
      · obtain ⟨hpB1, hpB2⟩ := (mem_pixList nrow ncol p).1 hp
        exact ⟨p, hpB1, hpB2, hpl, hpe⟩
  · intro hno
    have hfold := bboxFold_nomatch (lab : ℤ) L (pixList nrow ncol)
      ⟨(nrow : ℤ), -1, (ncol : ℤ), -1⟩ (fun p hp => by
        obtain ⟨hpB1, hpB2⟩ := (mem_pixList nrow ncol p).1 hp
        exact hno p hpB1 hpB2)
    rw [hgetD, hfold, if_neg (by simp)]

/-- Witness for C5 on a 2×2 grid whose second row carries label 1: the
reported row is a real bounding box, and it evaluates to (1, 1, 0, 1). -/
theorem C5_witness :
    (∃ r : ℤ × ℤ × ℤ × ℤ,
      (regionpropsBbox 2 2 (fun i _ => if i = 1 then 1 else 0) 1).getD 0 none = some r) ∧
    (regionpropsBbox 2 2 (fun i _ => if i = 1 then 1 else 0) 1).getD 0 none =
      some (1, 1, 0, 1) := by
  constructor
  · obtain ⟨r, hr, _⟩ := (C5_regionprops_bbox 2 2 (fun i _ => if i = 1 then 1 else 0) 1 1
      (by decide) (by decide)).1 ⟨(1, 0), by decide, by decide, by decide⟩
    exact ⟨r, hr⟩
  · decide

/-! ### Claims C1 and C9: `bwlabel` -/

/-- Claim C1: `bwlabel` labels exactly the maximal 4-connected components of
the nonzero cells.  Zero cells get label 0 and nonzero cells a label in
`[1, num_labels]`; two nonzero cells carry equal labels iff they are
4-connected through nonzero cells (so diagonal-only contact separates);
every label in `[1, num_labels]` is used — together a bijection between
components and `{1, …, num_labels}`, so `num_labels` counts the components;
and the all-zero raster yields `num_labels = 0` with an all-zero grid. -/
theorem C1_bwlabel_components (sx sy : ℕ) (src : QGrid) :
    (∀ p : Pt, inB sx sy p →
      (src p.1 p.2 = 0 ↔ (bwlabel sx sy src).1 p.1 p.2 = 0)) ∧
    (∀ p : Pt, inB sx sy p → src p.1 p.2 ≠ 0 →
      1 ≤ (bwlabel sx sy src).1 p.1 p.2 ∧
        (bwlabel sx sy src).1 p.1 p.2 ≤ ((bwlabel sx sy src).2 : ℤ)) ∧
    (∀ p q : Pt, inB sx sy p → inB sx sy q → src p.1 p.2 ≠ 0 → src q.1 q.2 ≠ 0 →
      (connNZ sx sy src p q ↔
        (bwlabel sx sy src).1 p.1 p.2 = (bwlabel sx sy src).1 q.1 q.2)) ∧
    (∀ j : ℕ, 1 ≤ j → j ≤ (bwlabel sx sy src).2 →
      ∃ p : Pt, inB sx sy p ∧ (bwlabel sx sy src).1 p.1 p.2 = (j : ℤ)) ∧
    ((∀ p : Pt, inB sx sy p → src p.1 p.2 = 0) →
      (bwlabel sx sy src).2 = 0 ∧ ∀ a b : ℕ, (bwlabel sx sy src).1 a b = 0) := by
  refine ⟨?_, ?_, ?_, ?_, ?_⟩
  · exact fun p hp => bwlabel_zero_iff sx sy src p hp
  · exact fun p hp h0 => bwlabel_pos sx sy src p hp h0
  · exact fun p q hp hq hpn hqn => bwlabel_conn_iff sx sy src p q hp hq hpn hqn
  · exact fun j hj1 hj2 => bwlabel_surj sx sy src j hj1 hj2
  · exact fun h => bwlabel_allzero sx sy src h

lemma diagGrid_iso : ∀ q : Pt, adj (0, 0) q → inB 2 2 q → diagGrid q.1 q.2 = 0 := by
  rintro ⟨q1, q2⟩ hadj hB
  have hq : (q1 = 0 ∧ q2 = 1) ∨ (q1 = 1 ∧ q2 = 0) := by
    unfold adj adjV adjH at hadj
    dsimp only at hadj
    omega
  rcases hq with ⟨ha, hb⟩ | ⟨ha, hb⟩ <;> subst ha <;> subst hb <;> rfl

/-- Witness for C1 on the 2×2 diagonal grid: the two diagonally-touching
pixels get different labels, and there are exactly two components. -/
theorem C1_witness :
    (bwlabel 2 2 diagGrid).1 0 0 ≠ (bwlabel 2 2 diagGrid).1 1 1 ∧
    (bwlabel 2 2 diagGrid).2 = 2 := by
  have H := C1_bwlabel_components 2 2 diagGrid
  have ha : 1 ≤ (bwlabel 2 2 diagGrid).1 0 0 ∧
      (bwlabel 2 2 diagGrid).1 0 0 ≤ ((bwlabel 2 2 diagGrid).2 : ℤ) :=
    H.2.1 (0, 0) (by decide) (by decide)
  have hb : 1 ≤ (bwlabel 2 2 diagGrid).1 1 1 ∧
      (bwlabel 2 2 diagGrid).1 1 1 ≤ ((bwlabel 2 2 diagGrid).2 : ℤ) :=
    H.2.1 (1, 1) (by decide) (by decide)
  have hne : (bwlabel 2 2 diagGrid).1 0 0 ≠ (bwlabel 2 2 diagGrid).1 1 1 := by
    intro h
    have hconn := (H.2.2.1 (0, 0) (1, 1)
      (by decide) (by decide) (by decide) (by decide)).2 h
    have h2 := connNZ_isolated 2 2 diagGrid (0, 0) diagGrid_iso (1, 1) hconn
    exact absurd (congrArg Prod.fst h2) (by decide)
  have hmem : ∀ j : ℕ, 1 ≤ j → j ≤ (bwlabel 2 2 diagGrid).2 →
      (j : ℤ) = (bwlabel 2 2 diagGrid).1 0 0 ∨ (j : ℤ) = (bwlabel 2 2 diagGrid).1 1 1 := by
    intro j h1 h2
    obtain ⟨⟨p1, p2⟩, hpB, hpl⟩ := H.2.2.2.1 j h1 h2
    have hp1 : p1 < 2 := hpB.1
    have hp2 : p2 < 2 := hpB.2
    interval_cases p1 <;> interval_cases p2
    · exact Or.inl (show (bwlabel 2 2 diagGrid).1 0 0 = (j : ℤ) from hpl).symm
    · exfalso
      have hpl' : (bwlabel 2 2 diagGrid).1 0 1 = (j : ℤ) := hpl
      have h0 : (bwlabel 2 2 diagGrid).1 0 1 = 0 := (H.1 (0, 1) (by decide)).1 (by decide)
      omega
    · exfalso
      have hpl' : (bwlabel 2 2 diagGrid).1 1 0 = (j : ℤ) := hpl
      have h0 : (bwlabel 2 2 diagGrid).1 1 0 = 0 := (H.1 (1, 0) (by decide)).1 (by decide)
      omega
    · exact Or.inr (show (bwlabel 2 2 diagGrid).1 1 1 = (j : ℤ) from hpl).symm
  have hle : (bwlabel 2 2 diagGrid).2 ≤ 2 := by
    by_contra hgt
    have h1 := hmem 1 (by omega) (by omega)
    have h2 := hmem 2 (by omega) (by omega)
    have h3 := hmem 3 (by omega) (by omega)
    rcases h1 with h1 | h1 <;> rcases h2 with h2 | h2 <;> rcases h3 with h3 | h3 <;> omega
  exact ⟨hne, by omega⟩

/-- Claim C9: the label grid's values are `{0} ∪ [1, num_labels]`, every
label in `[1, num_labels]` appears on some pixel (no gaps, none skipped),
and labels are assigned in first-encounter order along the storage-order
scan: for each `j`, some pixel of label `j` precedes (in flat scan index)
every pixel of label `j + 1`. -/
theorem C9_label_values_order (sx sy : ℕ) (src : QGrid) :
    (∀ p : Pt, inB sx sy p →
      (bwlabel sx sy src).1 p.1 p.2 = 0 ∨
      (1 ≤ (bwlabel sx sy src).1 p.1 p.2 ∧
        (bwlabel sx sy src).1 p.1 p.2 ≤ ((bwlabel sx sy src).2 : ℤ))) ∧
    (∀ j : ℕ, 1 ≤ j → j ≤ (bwlabel sx sy src).2 →
      ∃ p : Pt, inB sx sy p ∧ (bwlabel sx sy src).1 p.1 p.2 = (j : ℤ)) ∧
    (∀ j : ℕ, 1 ≤ j → j < (bwlabel sx sy src).2 →
      ∃ p : Pt, inB sx sy p ∧ (bwlabel sx sy src).1 p.1 p.2 = (j : ℤ) ∧
        ∀ q : Pt, inB sx sy q → (bwlabel sx sy src).1 q.1 q.2 = ((j : ℤ) + 1) →
          scanIdx sx p < scanIdx sx q) := by
  refine ⟨?_, ?_, ?_⟩
  · intro p hp
    by_cases h0 : src p.1 p.2 = 0
    · exact Or.inl ((bwlabel_zero_iff sx sy src p hp).1 h0)
    · exact Or.inr (bwlabel_pos sx sy src p hp h0)
  · exact fun j hj1 hj2 => bwlabel_surj sx sy src j hj1 hj2
  · exact fun j hj1 hj2 => bwlabel_order sx sy src j hj1 hj2

/-- Witness for C9 on the 2×2 diagonal grid: some pixel of label 1 precedes
every pixel of label 2 in scan order. -/
theorem C9_witness :
    ∃ p : Pt, inB 2 2 p ∧ (bwlabel 2 2 diagGrid).1 p.1 p.2 = ((1 : ℕ) : ℤ) ∧
      ∀ q : Pt, inB 2 2 q → (bwlabel 2 2 diagGrid).1 q.1 q.2 = (((1 : ℕ) : ℤ) + 1) →
        scanIdx 2 p < scanIdx 2 q := by
  have ha : 1 ≤ (bwlabel 2 2 diagGrid).1 0 0 ∧
      (bwlabel 2 2 diagGrid).1 0 0 ≤ ((bwlabel 2 2 diagGrid).2 : ℤ) :=
    bwlabel_pos 2 2 diagGrid (0, 0) (by decide) (by decide)
  have hb : 1 ≤ (bwlabel 2 2 diagGrid).1 1 1 ∧
      (bwlabel 2 2 diagGrid).1 1 1 ≤ ((bwlabel 2 2 diagGrid).2 : ℤ) :=
    bwlabel_pos 2 2 diagGrid (1, 1) (by decide) (by decide)
  have hne : (bwlabel 2 2 diagGrid).1 0 0 ≠ (bwlabel 2 2 diagGrid).1 1 1 := by
    intro h
    have hconn := (bwlabel_conn_iff 2 2 diagGrid (0, 0) (1, 1)
      (by decide) (by decide) (by decide) (by decide)).2 h
    have h2 := connNZ_isolated 2 2 diagGrid (0, 0) diagGrid_iso (1, 1) hconn
    exact absurd (congrArg Prod.fst h2) (by decide)
  exact (C9_label_values_order 2 2 diagGrid).2.2 1 (by omega) (by omega)

/-! ### `process_lung_regions`: the selection scan and area tally -/

lemma argmaxFirst_append (f : ℤ → ℤ) (P : List ℤ) (b : ℤ) :
    argmaxFirst f (P ++ [b]) =
      match argmaxFirst f P with
      | none => some b
      | some m => if f b > f m then some b else some m := by
  unfold argmaxFirst
  rw [List.foldl_append]
  rfl

lemma argmaxFirst_nil (f : ℤ → ℤ) : argmaxFirst f [] = none := rfl

lemma argmaxFirst_eq_none (f : ℤ → ℤ) (l : List ℤ) :
    argmaxFirst f l = none ↔ l = [] := by
  induction l using List.reverseRecOn with
  | nil => simp [argmaxFirst_nil]
  | append_singleton P b ih =>
    rw [argmaxFirst_append]
    constructor
    · intro h
      rcases hm : argmaxFirst f P with _ | m <;> rw [hm] at h
      · exact absurd h (by simp)
      · dsimp only at h
        split at h <;> exact absurd h (by simp)
    · intro h
      exact absurd h (by simp)

lemma argmaxFirst_mem (f : ℤ → ℤ) (l : List ℤ) (m : ℤ) (h : argmaxFirst f l = some m) :
    m ∈ l := by
  induction l using List.reverseRecOn with
  | nil => exact absurd h (by simp [argmaxFirst_nil])
  | append_singleton P b ih =>
    rw [argmaxFirst_append] at h
    rcases hm : argmaxFirst f P with _ | m' <;> rw [hm] at h <;> dsimp only at h
    · injection h with h
      rw [← h]
      exact List.mem_append_right P (by simp)
    · split at h <;> injection h with h
      · rw [← h]
        exact List.mem_append_right P (by simp)
      · subst h
        exact List.mem_append_left _ (ih hm)

lemma argmaxFirst_congr (f g : ℤ → ℤ) (l : List ℤ) (h : ∀ x ∈ l, f x = g x) :
    argmaxFirst f l = argmaxFirst g l := by
  induction l using List.reverseRecOn with
  | nil => rfl
  | append_singleton P b ih =>
    have hP : ∀ x ∈ P, f x = g x := fun x hx => h x (List.mem_append_left _ hx)
    have hb : f b = g b := h b (List.mem_append_right P (by simp))
    rw [argmaxFirst_append, argmaxFirst_append, ih hP]
    rcases hm : argmaxFirst g P with _ | m
    · rfl
    · have hmP : m ∈ P := argmaxFirst_mem g P m hm
      dsimp only
      rw [hb, hP m hmP]

lemma filterFold_spec (A : List ℤ) (P : List ℤ) (hnd : P.Nodup)
    (hpos : ∀ lab ∈ P, 0 ≤ areaOfLabel A lab) :
    ∀ m1, argmaxFirst (areaOfLabel A) P = some m1 →
      (P.foldl (filterStep A) ⟨-1, -1, -1, -1⟩).l1 = m1 ∧
      (P.foldl (filterStep A) ⟨-1, -1, -1, -1⟩).a1 = areaOfLabel A m1 ∧
      (P.erase m1 = [] →
        (P.foldl (filterStep A) ⟨-1, -1, -1, -1⟩).l2 = -1 ∧
        (P.foldl (filterStep A) ⟨-1, -1, -1, -1⟩).a2 = -1) ∧
      (∀ m2, argmaxFirst (areaOfLabel A) (P.erase m1) = some m2 →
        (P.foldl (filterStep A) ⟨-1, -1, -1, -1⟩).l2 = m2 ∧
        (P.foldl (filterStep A) ⟨-1, -1, -1, -1⟩).a2 = areaOfLabel A m2) := by
  induction P using List.reverseRecOn with
  | nil =>
    intro m1 h
    exact absurd h (by simp [argmaxFirst_nil])
  | append_singleton P b ih =>
    intro m1 h
    have hndP : P.Nodup := hnd.of_append_left
    have hposP : ∀ lab ∈ P, 0 ≤ areaOfLabel A lab :=
      fun lab hl => hpos lab (List.mem_append_left _ hl)
    have hposb : 0 ≤ areaOfLabel A b := hpos b (List.mem_append_right P (by simp))
    have hbP : b ∉ P := by
      intro hb
      exact (List.disjoint_of_nodup_append hnd) hb (by simp)
    rw [argmaxFirst_append] at h
    rw [List.foldl_append]
    simp only [List.foldl_cons, List.foldl_nil]
    rcases hP : argmaxFirst (areaOfLabel A) P with _ | m1'
    · -- P is empty: the fold starts from the initial sentinel state
      have hPe : P = [] := (argmaxFirst_eq_none _ _).1 hP
      subst hPe
      rw [hP] at h
      dsimp only at h
      injection h with h
      subst h
      have hstep : filterStep A ⟨-1, -1, -1, -1⟩ b =
          ⟨areaOfLabel A b, b, -1, -1⟩ := by
        simp only [filterStep]
        rw [if_pos (by omega)]
      simp only [List.foldl_cons, List.foldl_nil]
      rw [hstep]
      refine ⟨rfl, rfl, fun _ => ⟨rfl, rfl⟩, ?_⟩
      intro m2 h2
      rw [show (([] : List ℤ) ++ [b]).erase b = [] by simp] at h2
      exact absurd h2 (by simp [argmaxFirst_nil])
    · rw [hP] at h
      dsimp only at h
      obtain ⟨ihl1, iha1, ihe, ihm2⟩ := ih hndP hposP m1' hP
      have hm1'P : m1' ∈ P := argmaxFirst_mem _ P m1' hP
      have herase1 : (P ++ [b]).erase m1' = P.erase m1' ++ [b] :=
        List.erase_append_left _ hm1'P
      by_cases hgt : areaOfLabel A b > areaOfLabel A m1'
      · -- the new element dethrones the running maximum
        rw [if_pos hgt] at h
        injection h with h
        subst h
        have hstep : filterStep A (P.foldl (filterStep A) ⟨-1, -1, -1, -1⟩) b =
            ⟨areaOfLabel A b, b, areaOfLabel A m1',  m1'⟩ := by
          simp only [filterStep]
          rw [if_pos (by rw [iha1]; exact hgt)]
          rw [iha1, ihl1]
        rw [hstep]
        have herase : (P ++ [b]).erase b = P := by
          rw [List.erase_append_right _ hbP]
          simp
        rw [herase]
        refine ⟨rfl, rfl, ?_, ?_⟩
        · intro hPe
          rw [hPe] at hm1'P
          exact absurd hm1'P (by simp)
        · intro m2 h2
          rw [hP] at h2
          injection h2 with h2
          subst h2
          exact ⟨rfl, rfl⟩
      · -- the running maximum survives
        rw [if_neg hgt] at h
        injection h with h
        subst h
        rcases hP2 : argmaxFirst (areaOfLabel A) (P.erase m1') with _ | m2'
        · -- no second place yet: the new element takes it
          have hee : P.erase m1' = [] := (argmaxFirst_eq_none _ _).1 hP2
          obtain ⟨ihl2, iha2⟩ := ihe hee
          have hstep : filterStep A (P.foldl (filterStep A) ⟨-1, -1, -1, -1⟩) b =
              ⟨(P.foldl (filterStep A) ⟨-1, -1, -1, -1⟩).a1,
               (P.foldl (filterStep A) ⟨-1, -1, -1, -1⟩).l1, areaOfLabel A b, b⟩ := by
            simp only [filterStep]
            rw [if_neg (by rw [iha1]; exact hgt)]
            rw [if_pos (by rw [iha2]; omega)]
          rw [hstep, herase1, hee]
          refine ⟨ihl1, iha1, by intro hc; exact absurd hc (by simp), ?_⟩
          intro m2 h2
          rw [show ([] : List ℤ) ++ [b] = [b] from rfl] at h2
          rw [show argmaxFirst (areaOfLabel A) [b] = some b from rfl] at h2
          injection h2 with h2
          subst h2
          exact ⟨rfl, rfl⟩
        · obtain ⟨ihl2, iha2⟩ := ihm2 m2' hP2
          by_cases hgt2 : areaOfLabel A b > areaOfLabel A m2'
          · -- the new element takes second place
            have hstep : filterStep A (P.foldl (filterStep A) ⟨-1, -1, -1, -1⟩) b =
                ⟨(P.foldl (filterStep A) ⟨-1, -1, -1, -1⟩).a1,
                 (P.foldl (filterStep A) ⟨-1, -1, -1, -1⟩).l1, areaOfLabel A b, b⟩ := by
              simp only [filterStep]
              rw [if_neg (by rw [iha1]; exact hgt)]
              rw [if_pos (by rw [iha2]; exact hgt2)]
            rw [hstep, herase1]
            refine ⟨ihl1, iha1, by intro hc; exact absurd hc (by simp), ?_⟩
            intro m2 h2
            rw [argmaxFirst_append, hP2] at h2
            dsimp only at h2
            rw [if_pos hgt2] at h2
            injection h2 with h2
            subst h2
            exact ⟨rfl, rfl⟩
          · -- the new element changes nothing
            have hstep : filterStep A (P.foldl (filterStep A) ⟨-1, -1, -1, -1⟩) b =
                P.foldl (filterStep A) ⟨-1, -1, -1, -1⟩ := by
              simp only [filterStep]
              rw [if_neg (by rw [iha1]; exact hgt)]
              rw [if_neg (by rw [iha2]; exact hgt2)]
            rw [hstep, herase1]
            refine ⟨ihl1, iha1, by intro hc; exact absurd hc (by simp), ?_⟩
            intro m2 h2
            rw [argmaxFirst_append, hP2] at h2
            dsimp only at h2
            rw [if_neg hgt2] at h2
            injection h2 with h2
            subst h2
            exact ⟨ihl2, iha2⟩

lemma specTopTwo_length (f : ℤ → ℤ) (l : List ℤ) : (specTopTwo f l).length ≤ 2 := by
  unfold specTopTwo
  rcases h : argmaxFirst f l with _ | b
  · simp
  · dsimp only
    rcases h2 : argmaxFirst f (l.erase b) with _ | b2 <;> simp

lemma specTopTwo_congr (f g : ℤ → ℤ) (l : List ℤ) (h : ∀ x ∈ l, f x = g x) :
    specTopTwo f l = specTopTwo g l := by
  unfold specTopTwo
  rw [argmaxFirst_congr f g l h]
  rcases hm : argmaxFirst g l with _ | b
  · rfl
  · dsimp only
    rw [argmaxFirst_congr f g (l.erase b) (fun x hx => h x (List.mem_of_mem_erase hx))]

lemma filter_eq_spec (V A : List ℤ) (hne : V ≠ [])
    (hval : ∀ lab ∈ V, 1 ≤ lab ∧ lab ≤ (A.length : ℤ)) (hnd : V.Nodup)
    (hpos : ∀ lab ∈ V, 0 ≤ areaOfLabel A lab) :
    filterLungRegions V A =
      Except.ok (specTopTwo (areaOfLabel A) V,
        decide ((specTopTwo (areaOfLabel A) V).length < 2)) := by
  have hAne : A ≠ [] := by
    rcases V with _ | ⟨v, V'⟩
    · exact absurd rfl hne
    · have := (hval v (by simp)).2
      have h1 := (hval v (by simp)).1
      intro hA
      rw [hA] at this
      simp at this
      omega
  have hcond1 : ¬(V.isEmpty ∨ A.isEmpty) := by
    rw [List.isEmpty_iff, List.isEmpty_iff]
    rintro (h | h)
    · exact hne h
    · exact hAne h
  have hcond2 : ¬(V.any (fun lab =>
      decide (lab ≤ 0) || decide ((A.length : ℤ) < lab)) = true) := by
    rw [List.any_eq_true]
    rintro ⟨lab, hlab, hp⟩
    obtain ⟨h1, h2⟩ := hval lab hlab
    simp at hp
    omega
  have htop : (if (V.foldl (filterStep A) ⟨-1, -1, -1, -1⟩).l1 ≠ -1
        then [(V.foldl (filterStep A) ⟨-1, -1, -1, -1⟩).l1] else []) ++
      (if (V.foldl (filterStep A) ⟨-1, -1, -1, -1⟩).l2 ≠ -1
        then [(V.foldl (filterStep A) ⟨-1, -1, -1, -1⟩).l2] else []) =
      specTopTwo (areaOfLabel A) V := by
    rcases hm1 : argmaxFirst (areaOfLabel A) V with _ | m1
    · exact absurd ((argmaxFirst_eq_none _ V).1 hm1) hne
    · obtain ⟨hl1, ha1, he, hm2all⟩ := filterFold_spec A V hnd hpos m1 hm1
      have hm1V : m1 ∈ V := argmaxFirst_mem _ V m1 hm1
      have hm1pos : 1 ≤ m1 := (hval m1 hm1V).1
      unfold specTopTwo
      rw [hm1]
      dsimp only
      rcases hm2 : argmaxFirst (areaOfLabel A) (V.erase m1) with _ | m2
      · obtain ⟨hl2, ha2⟩ := he ((argmaxFirst_eq_none _ _).1 hm2)
        rw [hl1, hl2]
        rw [if_pos (by omega), if_neg (by omega)]
        rfl
      · obtain ⟨hl2, ha2⟩ := hm2all m2 hm2
        have hm2V : m2 ∈ V := List.mem_of_mem_erase (argmaxFirst_mem _ _ m2 hm2)
        have hm2pos : 1 ≤ m2 := (hval m2 hm2V).1
        rw [hl1, hl2]
        rw [if_pos (by omega), if_pos (by omega)]
        rfl
  unfold filterLungRegions
  rw [if_neg hcond1, if_neg hcond2]
  dsimp only
  rw [htop]

lemma getD_replicate_zero (n k : ℕ) : (List.replicate n (0 : ℤ)).getD k 0 = 0 := by
  rw [List.getD_eq_getElem?_getD]
  rcases Nat.lt_or_ge k n with h | h
  · rw [List.getElem?_replicate_of_lt h]
    rfl
  · rw [List.getElem?_eq_none (by simpa using h)]
    rfl

lemma areaTallyGo_spec (n : ℕ) (L : IGrid) (ps : List Pt) (acc res : List ℤ)
    (hlen : acc.length = n) (h : areaTallyGo n L ps acc = Except.ok res) :
    res.length = n ∧
    ∀ k : ℕ, k < n →
      res.getD k 0 = acc.getD k 0 +
        ((ps.countP (fun p => decide (L p.1 p.2 = (k : ℤ) + 1)) : ℕ) : ℤ) := by
  induction ps generalizing acc with
  | nil =>
    rw [areaTallyGo] at h
    injection h with h
    subst h
    exact ⟨hlen, fun k _ => by simp⟩
  | cons p ps ih =>
    rw [areaTallyGo] at h
    by_cases hpos : 0 < L p.1 p.2
    · rw [if_pos hpos] at h
      by_cases hbig : (n : ℤ) < L p.1 p.2
      · rw [if_pos hbig] at h
        exact absurd h (by simp)
      · rw [if_neg hbig] at h
        have hidx : (L p.1 p.2 - 1).toNat < n := by omega
        have hlen' : (acc.set (L p.1 p.2 - 1).toNat
            (acc.getD (L p.1 p.2 - 1).toNat 0 + 1)).length = n := by
          rw [List.length_set]; exact hlen
        obtain ⟨hrl, hrk⟩ := ih _ hlen' h
        refine ⟨hrl, ?_⟩
        intro k hk
        rw [hrk k hk, List.countP_cons]
        by_cases heq : (L p.1 p.2 - 1).toNat = k
        · have hlab : L p.1 p.2 = (k : ℤ) + 1 := by omega
          rw [heq]
          rw [List.getD_eq_getElem?_getD, List.getElem?_set_self (by omega),
            Option.getD_some]
          rw [if_pos (by simp [hlab])]
          push_cast
          omega
        · have hlab : ¬(L p.1 p.2 = (k : ℤ) + 1) := by omega
          rw [List.getD_eq_getElem?_getD, List.getElem?_set_ne heq,
            ← List.getD_eq_getElem?_getD]
          rw [if_neg (by simp [hlab])]
          omega
    · rw [if_neg hpos] at h
      obtain ⟨hrl, hrk⟩ := ih acc hlen h
      refine ⟨hrl, ?_⟩
      intro k hk
      rw [hrk k hk, List.countP_cons]
      rw [if_neg (by simp; omega)]
      omega

lemma validRegionsOf_nodup (regions : List (ℤ × ℤ × ℤ × ℤ)) :
    (validRegionsOf regions).Nodup := by
  unfold validRegionsOf
  refine List.Nodup.map ?_ (List.Nodup.filter _ (List.nodup_range _))
  intro a b hab
  dsimp only at hab
  omega

lemma validRegionsOf_mem (regions : List (ℤ × ℤ × ℤ × ℤ)) (lab : ℤ)
    (h : lab ∈ validRegionsOf regions) :
    1 ≤ lab ∧ lab ≤ (regions.length : ℤ) := by
  unfold validRegionsOf at h
  rw [List.mem_map] at h
  obtain ⟨i, hi, rfl⟩ := h
  rw [List.mem_filter, List.mem_range] at hi
  constructor
  · omega
  · omega

lemma areaOfLabel_eq_labelArea (nrow ncol n : ℕ) (L : IGrid) (areas : List ℤ)
    (htally : areaTallyGo n L (pixList nrow ncol) (List.replicate n 0) = Except.ok areas)
    (lab : ℤ) (h1 : 1 ≤ lab) (h2 : lab ≤ (n : ℤ)) :
    areaOfLabel areas lab = (labelArea nrow ncol L lab : ℤ) := by
  obtain ⟨hlen, hk⟩ := areaTallyGo_spec n L (pixList nrow ncol) _ areas (by simp) htally
  have hkn : (lab - 1).toNat < n := by omega
  unfold areaOfLabel labelArea
  rw [hk _ hkn, getD_replicate_zero]
  have hcast : (((lab - 1).toNat : ℤ)) + 1 = lab := by omega
  simp only [hcast]
  omega
/-! ### Claims C4, C7, C8: `process_lung_regions` -/

/-- Claim C4: on every successful run of `process_lung_regions`, the kept
label list has at most two entries; when more than two candidates pass the
extent filter it equals the spec's ranking — the first label of maximal
pixel area, then the first label of maximal area among the rest
(first-encounter tie-break) — and every in-bounds pixel whose positive
label was not kept is 0 in the returned grid while all other pixels are
unchanged. -/
theorem C4_top_two_selection (nrow ncol : ℕ) (L : IGrid) (regions : List (ℤ × ℤ × ℤ × ℤ))
    (img : IGrid) (kept : List ℤ) (w : Bool)
    (hok : processLungRegions nrow ncol L regions = Except.ok (img, kept, w)) :
    kept.length ≤ 2 ∧
    (2 < (validRegionsOf regions).length →
      kept = specTopTwo (fun lab => (labelArea nrow ncol L lab : ℤ))
        (validRegionsOf regions)) ∧
    (∀ i j : ℕ, i < nrow → j < ncol → 0 < L i j → ¬ (L i j ∈ kept) → img i j = 0) ∧
    (∀ i j : ℕ, i < nrow → j < ncol → (L i j ≤ 0 ∨ L i j ∈ kept) → img i j = L i j) := by
  unfold processLungRegions at hok
  by_cases hn0 : regions.length = 0
  · rw [if_pos hn0] at hok
    exact absurd hok (by simp)
  · rw [if_neg hn0] at hok
    rcases htally : areaTallyGo regions.length L (pixList nrow ncol)
        (List.replicate regions.length 0) with e | areas
    · rw [htally] at hok
      exact absurd hok (by simp)
    · rw [htally] at hok
      dsimp only at hok
      obtain ⟨hlen, -⟩ := areaTallyGo_spec regions.length L (pixList nrow ncol) _ areas
        (by simp) htally
      have hval : ∀ lab ∈ validRegionsOf regions, 1 ≤ lab ∧ lab ≤ ((areas.length : ℕ) : ℤ) := by
        intro lab hl
        rw [hlen]
        exact validRegionsOf_mem regions lab hl
      have hpos : ∀ lab ∈ validRegionsOf regions, 0 ≤ areaOfLabel areas lab := by
        intro lab hl
        obtain ⟨h1, h2⟩ := validRegionsOf_mem regions lab hl
        rw [areaOfLabel_eq_labelArea nrow ncol regions.length L areas htally lab h1 h2]
        exact Int.natCast_nonneg _
      have hcongr : specTopTwo (areaOfLabel areas) (validRegionsOf regions) =
          specTopTwo (fun lab => (labelArea nrow ncol L lab : ℤ)) (validRegionsOf regions) := by
        refine specTopTwo_congr _ _ _ ?_
        intro x hx
        obtain ⟨h1, h2⟩ := validRegionsOf_mem regions x hx
        exact areaOfLabel_eq_labelArea nrow ncol regions.length L areas htally x h1 h2
      by_cases hgt2 : 2 < (validRegionsOf regions).length
      · rw [if_pos hgt2] at hok
        have hne : validRegionsOf regions ≠ [] := by
          intro he
          rw [he] at hgt2
          simp at hgt2
        rw [filter_eq_spec (validRegionsOf regions) areas hne hval
          (validRegionsOf_nodup regions) hpos] at hok
        dsimp only at hok
        injection hok with hok
        injection hok with h1 h2
        injection h2 with h2 h3
        subst h1
        subst h2
        refine ⟨?_, ?_, ?_, ?_⟩
        · exact specTopTwo_length (areaOfLabel areas) (validRegionsOf regions)
        · intro _
          exact hcongr
        · intro i j hi hj hLij hmem
          dsimp only
          rw [if_pos ⟨hi, hj, hLij, hmem⟩]
        · intro i j hi hj hcase
          dsimp only
          rw [if_neg ?_]
          rintro ⟨-, -, hpos', hmem⟩
          rcases hcase with hc | hc
          · omega
          · exact hmem hc
      · rw [if_neg hgt2] at hok
        dsimp only at hok
        injection hok with hok
        injection hok with h1 h2
        injection h2 with h2 h3
        subst h1
        subst h2
        refine ⟨by omega, ?_, ?_, ?_⟩
        · intro hc
          exact absurd hc hgt2
        · intro i j hi hj hLij hmem
          dsimp only
          rw [if_pos ⟨hi, hj, hLij, hmem⟩]
        · intro i j hi hj hcase
          dsimp only
          rw [if_neg ?_]
          rintro ⟨-, -, hpos', hmem⟩
          rcases hcase with hc | hc
          · omega
          · exact hmem hc

/-- Witness for C4 on the 1×3 image with labels 1, 2, 3 and three passing
bbox rows: labels 1 and 2 (the first two maximal-area candidates) are kept
and the label-3 pixel is zeroed. -/
theorem C4_witness :
    (([1, 2] : List ℤ).length ≤ 2) ∧
    (2 < (validRegionsOf c8Regions).length →
      ([1, 2] : List ℤ) =
        specTopTwo (fun lab => (labelArea 1 3 c8Grid lab : ℤ)) (validRegionsOf c8Regions)) ∧
    (∀ i j : ℕ, i < 1 → j < 3 → 0 < c8Grid i j → ¬ (c8Grid i j ∈ ([1, 2] : List ℤ)) →
      c4Img i j = 0) ∧
    (∀ i j : ℕ, i < 1 → j < 3 → (c8Grid i j ≤ 0 ∨ c8Grid i j ∈ ([1, 2] : List ℤ)) →
      c4Img i j = c8Grid i j) :=
  C4_top_two_selection 1 3 c8Grid c8Regions c4Img [1, 2] false rfl

/-- Claim C7 counterexample: on a valid non-empty input where no region
passes the extent filter (so fewer than 2 candidates remain),
`process_lung_regions` returns normally — but the warning flag is `false`:
`filter_lung_regions`, the only place the soft warning lives, is called
only when *more* than 2 candidates remain, so the advertised warning is
never emitted in the fewer-than-2 case. -/
theorem C7_counterexample :
    (validRegionsOf [((0 : ℤ), 400, 0, 0)]).length < 2 ∧
    ∃ img : IGrid, processLungRegions 1 1 (fun _ _ => 1) [(0, 400, 0, 0)] =
      Except.ok (img, ([] : List ℤ), false) :=
  ⟨by decide, ⟨_, rfl⟩⟩

/-- Claim C7 (amended): with valid non-empty input, a successful tally and
at most 2 candidates passing the extent filter, `process_lung_regions`
returns normally with exactly those candidates as the kept set — and with
the warning flag `false`: no soft warning is emitted on this path, because
`filter_lung_regions` (which owns the warning) only runs when more than 2
candidates remain. -/
theorem C7_soft_warning_amended (nrow ncol : ℕ) (L : IGrid)
    (regions : List (ℤ × ℤ × ℤ × ℤ)) (hn : regions.length ≠ 0) (areas : List ℤ)
    (htally : areaTallyGo regions.length L (pixList nrow ncol)
      (List.replicate regions.length 0) = Except.ok areas)
    (hle : (validRegionsOf regions).length ≤ 2) :
    processLungRegions nrow ncol L regions =
      Except.ok (fun i j =>
          if i < nrow ∧ j < ncol ∧ 0 < L i j ∧ ¬ (L i j ∈ validRegionsOf regions) then 0
          else L i j,
        validRegionsOf regions, false) := by
  unfold processLungRegions
  rw [if_neg hn, htally]
  dsimp only
  rw [if_neg (by omega)]

/-- Witness for the amended C7: the single region's bounding box spans 400
rows, so the candidate list is empty, and the call returns the empty kept
set with no warning. -/
theorem C7_witness :
    processLungRegions 1 1 (fun _ _ => 1) [((0 : ℤ), 400, 0, 0)] =
      Except.ok (fun i j =>
          if i < 1 ∧ j < 1 ∧ 0 < (fun _ _ => (1 : ℤ)) i j ∧
            ¬ ((fun _ _ => (1 : ℤ)) i j ∈ validRegionsOf [((0 : ℤ), 400, 0, 0)]) then 0
          else (fun _ _ => (1 : ℤ)) i j,
        validRegionsOf [((0 : ℤ), 400, 0, 0)], false) :=
  C7_soft_warning_amended 1 1 (fun _ _ => 1) [((0 : ℤ), 400, 0, 0)] (by decide) [1] rfl
    (by decide)

/-- Claim C8 counterexample: `process_lung_regions` writes through the Rcpp
proxy of the caller's `label_image` without cloning, so after a successful
call the caller's buffer holds the filtered image: on the 1×3 image with
labels 1, 2, 3 the caller's pixel (0, 2) has been zeroed (it was 3). -/
theorem C8_counterexample :
    processLungRegionsArgAfter 1 3 c8Grid c8Regions 0 2 = 0 ∧ c8Grid 0 2 = 3 := by
  constructor
  · rfl
  · decide

/-- Claim C8 (amended): `clear_border` clones its argument before any write
(`NumericMatrix out = clone(labels)`), so the caller's raster is unchanged;
but `process_lung_regions` takes no clone and assigns
`label_image(i, j) = 0` through the caller's buffer, so after a successful
call the caller's grid equals the returned filtered image rather than the
original. -/
theorem C8_caller_buffers_amended (nrow ncol : ℕ) (g : QGrid) (buffer : ℕ) (bgval : ℚ)
    (nrow' ncol' : ℕ) (L : IGrid) (regions : List (ℤ × ℤ × ℤ × ℤ))
    (img : IGrid) (kept : List ℤ) (w : Bool)
    (hok : processLungRegions nrow' ncol' L regions = Except.ok (img, kept, w)) :
    clearBorderArgAfter nrow ncol g buffer bgval = g ∧
    processLungRegionsArgAfter nrow' ncol' L regions = img := by
  refine ⟨rfl, ?_⟩
  unfold processLungRegionsArgAfter
  rw [hok]

/-- Witness for the amended C8: `clear_border` leaves its concrete argument
grid intact, while `process_lung_regions` leaves the caller's buffer equal
to the filtered image `c4Img`. -/
theorem C8_witness :
    clearBorderArgAfter 5 5 c2Grid 0 0 = c2Grid ∧
    processLungRegionsArgAfter 1 3 c8Grid c8Regions = c4Img :=
  C8_caller_buffers_amended 5 5 c2Grid 0 0 1 3 c8Grid c8Regions c4Img [1, 2] false rfl
